import Mathlib

/-!
Verification of the versioned file store of the kodiproxy repository.

The development shallowly embeds the Rust sources:
* `src/router/src/router.rs` — the error taxonomy (`RouterError`);
* `src/files/src/db.rs` — the authoritative sqlite store (`FilesDB`);
* `src/files/src/log.rs` — the history log entry type and its text codec;
* `src/cache/src/db.rs` — the cache store (`CacheDb`);
* `src/cache/src/logs_comparator.rs` — the log comparator.

Modelling conventions: Rust `String` data that the code inspects character by
character is modelled as `List Char`; opaque strings (paths, names, hashes,
rendered timestamps, addresses) as `String`; sqlite tables as association
lists keyed by their primary key; byte blobs as `List Nat`; `i32` as `Int` and
`u32` as `Nat` (with explicit `< 2 ^ 32` bounds where the code converts);
fallible operations as `Except RouterError`; external serialisation funcions
(chrono timestamp and `IpAddr` rendering/parsing, SHA-256 digests) as explicit
function parameters, so theorems assume only their round-trip facts.
-/

namespace KPV

/-- Error taxonomy of the router, from `pub enum RouterError` in
`src/router/src/router.rs`. -/
inductive RouterError where
  | ForwardingError (msg : String)
  | HandlerError (code : Nat) (msg : String)
  | InvalidRequest (msg : String)
  | MethodNotAllowed
  | NotFound
deriving DecidableEq, Repr

namespace FilesDB

/-- A file identity: the `(PATH, NAME)` primary key of the `FILES` table
(`src/files/src/db.rs`). -/
structure Identity where
  path : String
  name : String
deriving DecidableEq, Repr

/-- A row of the `FILES` table minus its key: `VERSION`, `TIMESTAMP` (an
rfc3339 text column, kept as the stored string), `HASH`, `FILE`
(`SQL_CREATE_FILES_TABLE` in `src/files/src/db.rs`). -/
structure FileRow where
  version : Int
  timestamp : String
  hash : String
  file : List Nat
deriving DecidableEq, Repr

/-- A row of the `FILES_HISTORY` table (`SQL_CREATE_FILES_HISTORY_TABLE` in
`src/files/src/db.rs`); primary key `(path, name, version)`. -/
structure HistRow where
  path : String
  name : String
  version : Int
  timestamp : String
  operation : String
  ipAddress : String
  hash : Option String
  oldOrNewPath : Option String
  file : Option (List Nat)
deriving DecidableEq, Repr

/-- The state of the authoritative database: the `FILES` table (an
association list on the `(PATH, NAME)` key) and the `FILES_HISTORY` table in
row-insertion order. -/
structure DbState where
  files : List (Identity × FileRow)
  history : List HistRow
deriving DecidableEq, Repr

/-- The fresh database created by `FilesDB::new`: both tables empty. -/
def DbState.init : DbState := ⟨[], []⟩

/-- Response record `FilesDbResponse` of `src/files/src/db.rs`; the
`timestamp` field carries the rendered timestamp string. -/
structure FilesDbResponse where
  version : Int
  timestamp : String
  file : Option (List Nat)
deriving DecidableEq, Repr

/-- Lookup in the `FILES` table (`SQL_SELECT_FILE` / `SQL_SELECT_VERSION`
row selection by primary key). -/
def findRow (files : List (Identity × FileRow)) (id : Identity) : Option FileRow :=
  (files.find? (fun kv => kv.1 = id)).map (fun kv => kv.2)

/-- `FilesDB::get_current_version`: `select VERSION from FILES where PATH=? and NAME=?`,
with `.ok()` turning the no-row error into `None`. -/
def getCurrentVersion (s : DbState) (filePath fileName : String) : Option Int :=
  (findRow s.files ⟨filePath, fileName⟩).map (fun r => r.version)

/-- The rows of `FILES_HISTORY` belonging to one identity, in insertion
order (the `where PATH=? and NAME=?` filter). -/
def idHistory (s : DbState) (filePath fileName : String) : List HistRow :=
  s.history.filter (fun r => r.path = filePath ∧ r.name = fileName)

/-- `FilesDB::get_history_version`: `select max(VERSION) from FILES_HISTORY
where PATH=? and NAME=?`. On an empty group sqlite returns a single NULL row,
whose `i32` read fails, and `.ok()` yields `None`. -/
def getHistoryVersion (s : DbState) (filePath fileName : String) : Option Int :=
  match (idHistory s filePath fileName).map (fun r => r.version) with
  | [] => none
  | v :: vs => some (vs.foldl max v)

/-- `SQL_UPSERT_FILE`: insert the row, or on a `(PATH, NAME)` conflict update
`VERSION`, `TIMESTAMP`, `HASH`, `FILE` in place. -/
def upsertFile (files : List (Identity × FileRow)) (id : Identity) (row : FileRow) :
    List (Identity × FileRow) :=
  if files.any (fun kv => kv.1 = id) then
    files.map (fun kv => if kv.1 = id then (id, row) else kv)
  else
    files ++ [(id, row)]

/-- `SQL_DELETE_FILE`: delete the row with the given key; also returns the
number of deleted rows, as `rusqlite`'s `execute` does. -/
def deleteFile (files : List (Identity × FileRow)) (id : Identity) :
    List (Identity × FileRow) × Nat :=
  (files.filter (fun kv => ¬kv.1 = id), files.countP (fun kv => kv.1 = id))

/-- `SQL_INSERT_HISTORY_LINE`: appends the row, failing (as sqlite does) when
the `(PATH, NAME, VERSION)` primary key already exists. -/
def insertHistory (history : List HistRow) (r : HistRow) : Option (List HistRow) :=
  if history.any (fun h => h.path = r.path ∧ h.name = r.name ∧ h.version = r.version) then
    none
  else
    some (history ++ [r])

/-- `FilesDB::get` (`src/files/src/db.rs` lines 114-137). `parseTs` stands for
`decode_timestamp` (rfc3339 parsing of the stored text, here yielding the
modelled timestamp value); every query failure — no row, or an undecodable
timestamp — is mapped to a 404 `HandlerError` by the final `map_err`. -/
def get (parseTs : String → Option String) (s : DbState) (filePath fileName : String)
    (getContent : Bool) : Except RouterError FilesDbResponse :=
  match findRow s.files ⟨filePath, fileName⟩ with
  | none => .error (.HandlerError 404 "Could not find file")
  | some row =>
    match parseTs row.timestamp with
    | none => .error (.HandlerError 404 "Could not find file")
    | some ts =>
      .ok ⟨row.version, ts, if getContent then some row.file else none⟩

/-- `FilesDB::save` (`src/files/src/db.rs` lines 273-366). `digest` stands for
the base64 SHA-256 `digest` function, `timestampStr` for
`chrono::Utc::now().to_rfc3339()` and `address` for the rendered request
address. A failed history insert aborts the transaction, so the error case
leaves the state untouched. -/
def save (digest : List Nat → String) (timestampStr address : String) (s : DbState)
    (filePath fileName : String) (fileData : List Nat) (fileVersion : Option Int) :
    Except RouterError (DbState × FilesDbResponse) :=
  let hash := digest fileData
  let dbVersion := getCurrentVersion s filePath fileName
  if fileVersion ≠ dbVersion then
    .error (.HandlerError 412 "Version mismatch")
  else
    let newVersion := match dbVersion with
      | some v => v + 1
      | none =>
        match getHistoryVersion s filePath fileName with
        | some v => v + 1
        | none => 0
    let op := if dbVersion.isSome then "UPDATE" else "CREATION"
    match insertHistory s.history
        ⟨filePath, fileName, newVersion, timestampStr, op, address, some hash, none,
          some fileData⟩ with
    | none => .error (.HandlerError 500 "Failed to save file")
    | some history =>
      let files := upsertFile s.files ⟨filePath, fileName⟩
        ⟨newVersion, timestampStr, hash, fileData⟩
      .ok (⟨files, history⟩, ⟨newVersion, timestampStr, none⟩)

/-- `FilesDB::delete` (`src/files/src/db.rs` lines 369-441). The history line
is only inserted when the `FILES` delete touched a row; a failed insert
aborts the whole transaction. -/
def delete (timestampStr address : String) (s : DbState) (filePath fileName : String)
    (fileVersion : Int) : Except RouterError (DbState × FilesDbResponse) :=
  match getCurrentVersion s filePath fileName with
  | none => .error (.HandlerError 404 "File not found")
  | some dbVersion =>
    if fileVersion ≠ dbVersion then
      .error (.HandlerError 412 "Version mismatch")
    else
      let newVersion := dbVersion + 1
      let fd := deleteFile s.files ⟨filePath, fileName⟩
      if fd.2 ≠ 0 then
        match insertHistory s.history
            ⟨filePath, fileName, newVersion, timestampStr, "DELETION", address, none, none,
              none⟩ with
        | none => .error (.HandlerError 500 "Failed to delete file")
        | some history => .ok (⟨fd.1, history⟩, ⟨newVersion, timestampStr, none⟩)
      else
        .ok (⟨fd.1, s.history⟩, ⟨newVersion, timestampStr, none⟩)

/-- Model of `PathBuf::from(path).join(name).to_string_lossy()` for the
forward-slash paths this store uses. -/
def joinPath (path name : String) : String :=
  if path = "" then name else path ++ "/" ++ name

/-- `FilesDB::move_to` (`src/files/src/db.rs` lines 141-269). The source code
takes two `Utc::now()` readings (one kept as a `DateTime` for the response,
one rendered for the rows); they are modelled as the two parameters
`timestamp` and `timestampStr`. All four statements run in one transaction:
any failure aborts and leaves the state untouched. -/
def moveTo (digest : List Nat → String) (parseTs : String → Option String)
    (timestamp timestampStr address : String) (s : DbState)
    (filePathFrom fileNameFrom : String) (fileVersionFrom : Int)
    (filePathTo fileNameTo : String) : Except RouterError (DbState × FilesDbResponse) :=
  if fileNameFrom = fileNameTo ∧ filePathFrom = filePathTo then
    .error (.InvalidRequest "Origin and destination are the same")
  else
    match getCurrentVersion s filePathFrom fileNameFrom with
    | none => .error (.HandlerError 404 "File not found")
    | some dbVersionFrom =>
      if dbVersionFrom ≠ fileVersionFrom then
        .error (.HandlerError 412 "Version mismatch")
      else
        match getCurrentVersion s filePathTo fileNameTo with
        | some _ => .error (.HandlerError 412 "Destination already exists")
        | none =>
          match get parseTs s filePathFrom fileNameFrom true with
          | .error e => .error e
          | .ok resp =>
            match resp.file with
            | none => .error (.HandlerError 404 "File not found")
            | some fileData =>
              let hash := digest fileData
              let newVersionFrom := dbVersionFrom + 1
              let newVersionTo := match getHistoryVersion s filePathTo fileNameTo with
                | some v => v + 1
                | none => 0
              match insertHistory s.history
                  ⟨filePathFrom, fileNameFrom, newVersionFrom, timestampStr, "MOVE_TO",
                    address, none, some (joinPath filePathTo fileNameTo), none⟩ with
              | none => .error (.HandlerError 500 "Failed to move file")
              | some history1 =>
                match insertHistory history1
                    ⟨filePathTo, fileNameTo, newVersionTo, timestampStr, "MOVE_FROM",
                      address, some hash, some (joinPath filePathFrom fileNameFrom),
                      some fileData⟩ with
                | none => .error (.HandlerError 500 "Failed to move file")
                | some history2 =>
                  let files1 := (deleteFile s.files ⟨filePathFrom, fileNameFrom⟩).1
                  let files2 := upsertFile files1 ⟨filePathTo, fileNameTo⟩
                    ⟨newVersionTo, timestampStr, hash, fileData⟩
                  .ok (⟨files2, history2⟩, ⟨newVersionTo, timestamp, none⟩)

/-- A successful history insert appends the row. -/
theorem insertHistory_some {history : List HistRow} {r : HistRow} {h' : List HistRow}
    (h : insertHistory history r = some h') : h' = history ++ [r] := by
  unfold insertHistory at h
  split at h
  · cases h
  · cases h; rfl

/-- After an upsert, looking up the upserted key returns the new row. -/
theorem findRow_upsert_self (files : List (Identity × FileRow)) (id : Identity)
    (row : FileRow) : findRow (upsertFile files id row) id = some row := by
  unfold upsertFile
  split
  case isTrue h =>
    induction files with
    | nil => simp at h
    | cons kv tl ih =>
      by_cases hkv : kv.1 = id
      · simp [findRow, List.find?_cons, hkv]
      · simp only [List.any_cons, Bool.or_eq_true, decide_eq_true_eq] at h
        rcases h with h | h
        · exact absurd h hkv
        · simpa [findRow, List.find?_cons, hkv] using ih h
  case isFalse h =>
    induction files with
    | nil => simp [findRow, List.find?_cons]
    | cons kv tl ih =>
      simp only [List.any_cons, Bool.or_eq_true, decide_eq_true_eq, not_or] at h
      simpa [findRow, List.find?_cons, h.1] using ih h.2

/-- Lookup at the head of the table when the key matches. -/
theorem findRow_cons_self (kv : Identity × FileRow) (tl : List (Identity × FileRow))
    (id : Identity) (h : kv.1 = id) : findRow (kv :: tl) id = some kv.2 := by
  simp [findRow, List.find?_cons, h]

/-- Lookup skips a head row with a different key. -/
theorem findRow_cons_ne (kv : Identity × FileRow) (tl : List (Identity × FileRow))
    (id : Identity) (h : ¬kv.1 = id) : findRow (kv :: tl) id = findRow tl id := by
  simp [findRow, List.find?_cons, h]

/-- Replacing the rows of one key does not affect lookups of other keys. -/
theorem findRow_map_replace (files : List (Identity × FileRow)) (id id' : Identity)
    (row : FileRow) (h : id' ≠ id) :
    findRow (files.map (fun kv => if kv.1 = id then (id, row) else kv)) id'
      = findRow files id' := by
  induction files with
  | nil => rfl
  | cons kv tl ih =>
    rw [List.map_cons]
    by_cases hkv : kv.1 = id
    · rw [if_pos hkv, findRow_cons_ne _ _ _ (fun e => h e.symm),
        findRow_cons_ne _ _ _ (fun e => h (e.symm.trans hkv))]
      exact ih
    · rw [if_neg hkv]
      by_cases hkv' : kv.1 = id'
      · rw [findRow_cons_self _ _ _ hkv', findRow_cons_self _ _ _ hkv']
      · rw [findRow_cons_ne _ _ _ hkv', findRow_cons_ne _ _ _ hkv']
        exact ih

/-- Appending a row for one key does not affect lookups of other keys. -/
theorem findRow_append_ne (files : List (Identity × FileRow)) (id id' : Identity)
    (row : FileRow) (h : id' ≠ id) :
    findRow (files ++ [(id, row)]) id' = findRow files id' := by
  induction files with
  | nil => rw [List.nil_append, findRow_cons_ne _ _ _ (fun e => h e.symm)]
  | cons kv tl ih =>
    rw [List.cons_append]
    by_cases hkv' : kv.1 = id'
    · rw [findRow_cons_self _ _ _ hkv', findRow_cons_self _ _ _ hkv']
    · rw [findRow_cons_ne _ _ _ hkv', findRow_cons_ne _ _ _ hkv']
      exact ih

/-- An upsert does not affect lookups of other keys. -/
theorem findRow_upsert_ne (files : List (Identity × FileRow)) (id id' : Identity)
    (row : FileRow) (h : id' ≠ id) :
    findRow (upsertFile files id row) id' = findRow files id' := by
  unfold upsertFile
  split
  · exact findRow_map_replace files id id' row h
  · exact findRow_append_ne files id id' row h

/-- After a key is deleted, its lookup fails. -/
theorem findRow_delete_self (files : List (Identity × FileRow)) (id : Identity) :
    findRow (deleteFile files id).1 id = none := by
  unfold deleteFile
  induction files with
  | nil => rfl
  | cons kv tl ih =>
    by_cases hkv : kv.1 = id
    · have hp : ¬((fun kv : Identity × FileRow => decide ¬kv.1 = id) kv = true) := by
        simp [hkv]
      rw [List.filter_cons, if_neg hp]
      exact ih
    · have hp : (fun kv : Identity × FileRow => decide ¬kv.1 = id) kv = true := by
        simp [hkv]
      rw [List.filter_cons, if_pos hp, findRow_cons_ne _ _ _ hkv]
      exact ih

/-- Deleting a key does not affect lookups of other keys. -/
theorem findRow_delete_ne (files : List (Identity × FileRow)) (id id' : Identity)
    (h : id' ≠ id) : findRow (deleteFile files id).1 id' = findRow files id' := by
  unfold deleteFile
  induction files with
  | nil => rfl
  | cons kv tl ih =>
    by_cases hkv : kv.1 = id
    · have hp : ¬((fun kv : Identity × FileRow => decide ¬kv.1 = id) kv = true) := by
        simp [hkv]
      rw [List.filter_cons, if_neg hp,
        findRow_cons_ne _ _ _ (fun e => h (e.symm.trans hkv))]
      exact ih
    · have hp : (fun kv : Identity × FileRow => decide ¬kv.1 = id) kv = true := by
        simp [hkv]
      rw [List.filter_cons, if_pos hp]
      by_cases hkv' : kv.1 = id'
      · rw [findRow_cons_self _ _ _ hkv', findRow_cons_self _ _ _ hkv']
      · rw [findRow_cons_ne _ _ _ hkv', findRow_cons_ne _ _ _ hkv']
        exact ih

/-- Claim C1 — contract of `FilesDB::save`: it succeeds only when the expected
version equals the current live version (`None` when the identity is not
live), and fails with the 412 `Version mismatch` error whenever they
disagree; on success the new version is `current + 1` when live, else
`max history version + 1` (or `0` for an empty history), a `CREATION` history
entry is appended when the identity was not live and an `UPDATE` entry when
it was, and the current row is upserted with the new version, timestamp,
hash, and content. -/
theorem filesdb_save_contract (digest : List Nat → String) (ts addr : String)
    (s : DbState) (p n : String) (data : List Nat) (ev : Option Int) :
    (∀ s' r, save digest ts addr s p n data ev = .ok (s', r) →
      ev = getCurrentVersion s p n) ∧
    (ev ≠ getCurrentVersion s p n →
      save digest ts addr s p n data ev = .error (.HandlerError 412 "Version mismatch")) ∧
    (∀ s' r, save digest ts addr s p n data ev = .ok (s', r) →
      (∀ v, getCurrentVersion s p n = some v → r.version = v + 1) ∧
      (getCurrentVersion s p n = none →
        (∀ m, getHistoryVersion s p n = some m → r.version = m + 1) ∧
        (getHistoryVersion s p n = none → r.version = 0)) ∧
      s'.history = s.history ++
        [⟨p, n, r.version, ts,
          if (getCurrentVersion s p n).isSome then "UPDATE" else "CREATION",
          addr, some (digest data), none, some data⟩] ∧
      findRow s'.files ⟨p, n⟩ = some ⟨r.version, ts, digest data, data⟩) := by
  refine ⟨?_, ?_, ?_⟩
  · intro s' r hok
    by_cases h : ev = getCurrentVersion s p n
    · exact h
    · simp only [save, if_pos h] at hok
      cases hok
  · intro h
    simp only [save, if_pos h]
  · intro s' r hok
    simp only [save] at hok
    split at hok
    · cases hok
    · split at hok
      · cases hok
      case _ history hins =>
        rcases hok with ⟨rfl, rfl⟩
        have happ := insertHistory_some hins
        refine ⟨?_, ?_, ?_, ?_⟩
        · intro v hv
          simp [hv]
        · intro hv
          constructor
          · intro m hm
            simp [hv, hm]
          · intro hm
            simp [hv, hm]
        · simpa using happ
        · exact findRow_upsert_self ..

/-- Concrete check of `filesdb_save_contract`: on the fresh database, a save
carrying an expected version is rejected with 412, and a successful save
without one reports that the identity was not live. -/
theorem filesdb_save_contract_witness :
    save (fun _ => "H") "T" "A" DbState.init "p" "n" [1] (some 0)
      = .error (.HandlerError 412 "Version mismatch") ∧
    (none : Option Int) = getCurrentVersion DbState.init "p" "n" :=
  ⟨(filesdb_save_contract (fun _ => "H") "T" "A" DbState.init "p" "n" [1] (some 0)).2.1
      (by decide),
   (filesdb_save_contract (fun _ => "H") "T" "A" DbState.init "p" "n" [1] none).1
      ⟨[(⟨"p", "n"⟩, ⟨0, "T", "H", [1]⟩)],
        [⟨"p", "n", 0, "T", "CREATION", "A", some "H", none, some [1]⟩]⟩
      ⟨0, "T", none⟩ (by rfl)⟩

/-- The live row count of a key is positive exactly when lookup succeeds. -/
theorem countP_ne_zero_of_findRow {files : List (Identity × FileRow)} {id : Identity}
    {row : FileRow} (h : findRow files id = some row) :
    files.countP (fun kv => kv.1 = id) ≠ 0 := by
  induction files with
  | nil => cases h
  | cons kv tl ih =>
    by_cases hkv : kv.1 = id
    · simp [List.countP_cons, hkv]
    · rw [findRow_cons_ne _ _ _ hkv] at h
      simpa [List.countP_cons, hkv] using ih h

/-- Dissection of a successful `FilesDB::save`. -/
theorem save_ok_shape {digest : List Nat → String} {ts addr : String} {s : DbState}
    {p n : String} {data : List Nat} {ev : Option Int} {s' : DbState}
    {r : FilesDbResponse} (hok : save digest ts addr s p n data ev = .ok (s', r)) :
    ev = getCurrentVersion s p n ∧
    r = ⟨(match getCurrentVersion s p n with
          | some v => v + 1
          | none =>
            match getHistoryVersion s p n with
            | some v => v + 1
            | none => 0), ts, none⟩ ∧
    s'.history = s.history ++
      [⟨p, n, r.version, ts,
        if (getCurrentVersion s p n).isSome then "UPDATE" else "CREATION",
        addr, some (digest data), none, some data⟩] ∧
    s'.files = upsertFile s.files ⟨p, n⟩ ⟨r.version, ts, digest data, data⟩ := by
  simp only [save] at hok
  split at hok
  · cases hok
  case _ hev =>
    split at hok
    · cases hok
    case _ history hins =>
      rcases hok with ⟨rfl, rfl⟩
      have happ := insertHistory_some hins
      refine ⟨not_ne_iff.mp hev, rfl, by simpa using happ, rfl⟩

/-- Dissection of a successful `FilesDB::delete`. -/
theorem delete_ok_shape {ts addr : String} {s : DbState} {p n : String} {v : Int}
    {s' : DbState} {r : FilesDbResponse}
    (hok : delete ts addr s p n v = .ok (s', r)) :
    ∃ row, findRow s.files ⟨p, n⟩ = some row ∧ row.version = v ∧
      r = ⟨v + 1, ts, none⟩ ∧
      s'.history = s.history ++ [⟨p, n, v + 1, ts, "DELETION", addr, none, none, none⟩] ∧
      s'.files = (deleteFile s.files ⟨p, n⟩).1 := by
  simp only [delete] at hok
  split at hok
  · cases hok
  case _ dbv hdb =>
    obtain ⟨row, hrow, hver⟩ : ∃ row, findRow s.files ⟨p, n⟩ = some row ∧ row.version = dbv := by
      unfold getCurrentVersion at hdb
      cases hfr : findRow s.files ⟨p, n⟩ with
      | none => rw [hfr] at hdb; cases hdb
      | some row0 => rw [hfr] at hdb; exact ⟨row0, rfl, by simpa using hdb⟩
    split at hok
    · cases hok
    case _ hvv =>
      have hv : v = dbv := not_ne_iff.mp hvv
      subst hv
      split at hok
      case isFalse hcnt =>
        exact absurd (countP_ne_zero_of_findRow hrow) (by simpa [deleteFile] using hcnt)
      case isTrue hcnt =>
        split at hok
        · cases hok
        case _ history hins =>
          rcases hok with ⟨rfl, rfl⟩
          exact ⟨row, hrow, hver, rfl, by simpa using insertHistory_some hins, rfl⟩

/-- Dissection of a successful `FilesDB::move_to`. -/
theorem moveTo_ok_shape {digest : List Nat → String} {parseTs : String → Option String}
    {t ts addr : String} {s : DbState} {pf nf : String} {v : Int} {pt nt : String}
    {s' : DbState} {r : FilesDbResponse}
    (hok : moveTo digest parseTs t ts addr s pf nf v pt nt = .ok (s', r)) :
    ∃ rowFrom,
      ¬(nf = nt ∧ pf = pt) ∧
      findRow s.files ⟨pf, nf⟩ = some rowFrom ∧
      rowFrom.version = v ∧
      getCurrentVersion s pt nt = none ∧
      r = ⟨(match getHistoryVersion s pt nt with | some m => m + 1 | none => 0), t, none⟩ ∧
      s'.history = s.history
        ++ [⟨pf, nf, v + 1, ts, "MOVE_TO", addr, none, some (joinPath pt nt), none⟩]
        ++ [⟨pt, nt, r.version, ts, "MOVE_FROM", addr, some (digest rowFrom.file),
              some (joinPath pf nf), some rowFrom.file⟩] ∧
      s'.files = upsertFile (deleteFile s.files ⟨pf, nf⟩).1 ⟨pt, nt⟩
        ⟨r.version, ts, digest rowFrom.file, rowFrom.file⟩ := by
  simp only [moveTo] at hok
  split at hok
  · cases hok
  case _ hsame =>
    split at hok
    · cases hok
    case _ dbv hdb =>
      obtain ⟨rowFrom, hrow, hver⟩ :
          ∃ row, findRow s.files ⟨pf, nf⟩ = some row ∧ row.version = dbv := by
        unfold getCurrentVersion at hdb
        cases hfr : findRow s.files ⟨pf, nf⟩ with
        | none => rw [hfr] at hdb; cases hdb
        | some row0 => rw [hfr] at hdb; exact ⟨row0, rfl, by simpa using hdb⟩
      split at hok
      · cases hok
      case _ hvv =>
        have hv : dbv = v := not_ne_iff.mp hvv
        subst hv
        split at hok
        · cases hok
        case _ hdest =>
          split at hok
          · cases hok
          case _ resp hget =>
            simp only [get, hrow] at hget
            split at hget
            · cases hget
            case _ ts' hts =>
              have hfile : resp.file = some rowFrom.file := by
                have hr := Except.ok.inj hget
                rw [← hr]
                simp
              rw [hfile] at hok
              split at hok
              case _ hfd => cases hfd
              case _ fileData hfd =>
                obtain rfl := Option.some.inj hfd
                split at hok
                · cases hok
                case _ history1 hins1 =>
                  split at hok
                  · cases hok
                  case _ history2 hins2 =>
                    rcases hok with ⟨rfl, rfl⟩
                    have h1 := insertHistory_some hins1
                    have h2 := insertHistory_some hins2
                    subst h1
                    refine ⟨rowFrom, hsame, hrow, hver, hdest, rfl, ?_, rfl⟩
                    simpa [hver] using h2

/-- The operation tags whose entry leaves the identity live (the
non-terminal history variants `CREATION`, `UPDATE`, `MOVE_FROM`). -/
def nonTerminalOp (op : String) : Prop :=
  op = "CREATION" ∨ op = "UPDATE" ∨ op = "MOVE_FROM"

/-- History rows in strictly increasing version order. -/
def VChain (l : List HistRow) : Prop :=
  List.Chain' (fun a b => a.version < b.version) l

/-- The invariant maintained by the mutating operations: per identity, the
history is strictly increasing in version, and a live identity's current
version equals the last (hence the largest) history version, whose entry is
non-terminal. -/
def Inv (s : DbState) : Prop :=
  ∀ p n, VChain (idHistory s p n) ∧
    ∀ row, findRow s.files ⟨p, n⟩ = some row →
      ∃ last, (idHistory s p n).getLast? = some last ∧ last.version = row.version ∧
        nonTerminalOp last.operation

theorem vchain_le_getLast {l : List HistRow} {last : HistRow} :
    VChain l → l.getLast? = some last → ∀ x ∈ l, x.version ≤ last.version := by
  induction l with
  | nil => intro _ hl; cases hl
  | cons a tl ih =>
    intro hc hl x hx
    cases tl with
    | nil =>
      rw [List.getLast?_singleton] at hl
      obtain rfl := Option.some.inj hl
      rcases List.mem_singleton.mp hx with rfl
      exact le_refl _
    | cons b tl' =>
      have hab : a.version < b.version := (List.chain'_cons.mp hc).1
      have hc' : VChain (b :: tl') := (List.chain'_cons.mp hc).2
      have hl' : (b :: tl').getLast? = some last := by
        rw [List.getLast?_cons_cons] at hl; exact hl
      rcases List.mem_cons.mp hx with rfl | hx'
      · exact le_trans (le_of_lt hab) (ih hc' hl' b (List.mem_cons_self b tl'))
      · exact ih hc' hl' x hx'

theorem foldl_max_getLast? : ∀ (vs : List Int) (v : Int),
    List.Chain' (· < ·) (v :: vs) → (v :: vs).getLast? = some (vs.foldl max v) := by
  intro vs
  induction vs with
  | nil => intro v _; simp
  | cons w ws ih =>
    intro v hc
    have hvw : v < w := (List.chain'_cons.mp hc).1
    have hc' : List.Chain' (· < ·) (w :: ws) := (List.chain'_cons.mp hc).2
    rw [List.getLast?_cons_cons, List.foldl_cons, max_eq_right (le_of_lt hvw)]
    exact ih w hc'

/-- Under the version-chain invariant, `max(VERSION)` is the version of the
last history row. -/
theorem getHistoryVersion_of_vchain (s : DbState) (p n : String)
    (hc : VChain (idHistory s p n)) :
    getHistoryVersion s p n = ((idHistory s p n).getLast?).map (fun r => r.version) := by
  unfold getHistoryVersion
  cases hl : idHistory s p n with
  | nil => simp
  | cons a tl =>
    rw [hl] at hc
    have hcv : List.Chain' (· < ·) ((a :: tl).map (fun r => r.version)) :=
      (List.chain'_map _).mpr hc
    rw [List.map_cons] at hcv
    have h := foldl_max_getLast? (tl.map (fun r => r.version)) a.version hcv
    have hmap : ((a :: tl).map (fun r => r.version)).getLast?
        = Option.map (fun r => r.version) (a :: tl).getLast? := by
      rw [List.getLast?_map]
    rw [List.map_cons]
    show some (List.foldl max a.version (tl.map (fun r => r.version)))
        = Option.map (fun r => r.version) (a :: tl).getLast?
    rw [← hmap, List.map_cons]
    exact h.symm

theorem getHistoryVersion_none_iff (s : DbState) (p n : String) :
    getHistoryVersion s p n = none ↔ idHistory s p n = [] := by
  unfold getHistoryVersion
  cases hl : idHistory s p n with
  | nil => simp
  | cons a tl => simp

theorem vchain_append_one {l : List HistRow} {r : HistRow} (hc : VChain l)
    (hgt : ∀ last, l.getLast? = some last → last.version < r.version) :
    VChain (l ++ [r]) := by
  rw [VChain, List.chain'_append]
  refine ⟨hc, List.chain'_singleton r, ?_⟩
  intro x hx y hy
  rw [List.head?_cons, Option.mem_def] at hy
  obtain rfl := Option.some.inj hy
  exact hgt x hx

theorem idHistory_eq (s : DbState) (p n : String) :
    idHistory s p n = s.history.filter (fun r => r.path = p ∧ r.name = n) := rfl

/-- Appending one history row extends exactly the matching identity's
history. -/
theorem idHistory_append (s s' : DbState) (r : HistRow) (p n : String)
    (hh : s'.history = s.history ++ [r]) :
    idHistory s' p n
      = idHistory s p n ++ (if r.path = p ∧ r.name = n then [r] else []) := by
  rw [idHistory_eq, hh, List.filter_append, ← idHistory_eq]
  congr 1
  by_cases hr : r.path = p ∧ r.name = n
  · simp [hr]
  · simp [hr]

/-- One successful mutating operation of the authoritative store, as claimed
over sequences of `save`, `delete` and `move_to`. -/
inductive Step : DbState → DbState → Prop where
  | save (digest : List Nat → String) (ts addr p n : String) (data : List Nat)
      (ev : Option Int) (s s' : DbState) (r : FilesDbResponse)
      (h : save digest ts addr s p n data ev = .ok (s', r)) : Step s s'
  | delete (ts addr p n : String) (v : Int) (s s' : DbState) (r : FilesDbResponse)
      (h : delete ts addr s p n v = .ok (s', r)) : Step s s'
  | move (digest : List Nat → String) (parseTs : String → Option String)
      (t ts addr pf nf pt nt : String) (v : Int) (s s' : DbState) (r : FilesDbResponse)
      (h : moveTo digest parseTs t ts addr s pf nf v pt nt = .ok (s', r)) : Step s s'

/-- States reachable from the fresh database by successful operations. -/
inductive Reachable : DbState → Prop where
  | init : Reachable DbState.init
  | step {s s' : DbState} : Reachable s → Step s s' → Reachable s'

theorem inv_init : Inv DbState.init := by
  intro p n
  exact ⟨List.chain'_nil, fun row hrow => by cases hrow⟩

theorem getCurrentVersion_some {s : DbState} {p n : String} {v : Int}
    (h : getCurrentVersion s p n = some v) :
    ∃ row, findRow s.files ⟨p, n⟩ = some row ∧ row.version = v := by
  unfold getCurrentVersion at h
  cases hfr : findRow s.files ⟨p, n⟩ with
  | none => rw [hfr] at h; cases h
  | some row0 => rw [hfr] at h; exact ⟨row0, rfl, by simpa using h⟩

theorem identity_ne {p n p' n' : String} (h : ¬(p' = p ∧ n' = n)) :
    (⟨p', n'⟩ : Identity) ≠ ⟨p, n⟩ :=
  fun he => h (by cases he; exact ⟨rfl, rfl⟩)

/-- `FilesDB::save` preserves the invariant. -/
theorem inv_save {digest : List Nat → String} {ts addr : String} {s : DbState}
    {p n : String} {data : List Nat} {ev : Option Int} {s' : DbState}
    {r : FilesDbResponse} (hok : save digest ts addr s p n data ev = .ok (s', r))
    (hinv : Inv s) : Inv s' := by
  obtain ⟨hev, hr, hhist, hfiles⟩ := save_ok_shape hok
  intro p' n'
  by_cases hid : p' = p ∧ n' = n
  · obtain ⟨rfl, rfl⟩ := hid
    obtain ⟨hc, hlive⟩ := hinv p' n'
    have happ := idHistory_append s s' _ p' n' hhist
    rw [if_pos ⟨rfl, rfl⟩] at happ
    have hlt : ∀ last, (idHistory s p' n').getLast? = some last →
        last.version < r.version := by
      intro last hlast
      cases hcv : getCurrentVersion s p' n' with
      | some v =>
        obtain ⟨rowL, hrowL, hrowLv⟩ := getCurrentVersion_some hcv
        obtain ⟨last', hlast', hlastv, _⟩ := hlive rowL hrowL
        rw [hlast] at hlast'
        obtain rfl := Option.some.inj hlast'
        have hrv : r.version = v + 1 := by rw [hr]; simp [hcv]
        rw [hrv, hlastv, hrowLv]
        omega
      | none =>
        cases hgv : getHistoryVersion s p' n' with
        | some m =>
          have hgl := getHistoryVersion_of_vchain s p' n' hc
          rw [hgv, hlast] at hgl
          have hm : m = last.version := by simpa using hgl
          have hrv : r.version = m + 1 := by rw [hr]; simp [hcv, hgv]
          rw [hrv, ← hm]
          omega
        | none =>
          have hnil := (getHistoryVersion_none_iff s p' n').mp hgv
          rw [hnil] at hlast
          cases hlast
    refine ⟨by rw [happ]; exact vchain_append_one hc hlt, ?_⟩
    intro row2 hrow2
    rw [hfiles, findRow_upsert_self] at hrow2
    obtain rfl := Option.some.inj hrow2
    have hl : (idHistory s' p' n').getLast? = some ⟨p', n', r.version, ts,
        (if (getCurrentVersion s p' n').isSome then "UPDATE" else "CREATION"),
        addr, some (digest data), none, some data⟩ := by
      rw [happ]
      exact List.getLast?_concat _
    refine ⟨_, hl, rfl, ?_⟩
    by_cases hcs : (getCurrentVersion s p' n').isSome
    · rw [if_pos hcs]
      exact Or.inr (Or.inl rfl)
    · rw [if_neg hcs]
      exact Or.inl rfl
  · have hne : (⟨p', n'⟩ : Identity) ≠ ⟨p, n⟩ := identity_ne hid
    obtain ⟨hc, hlive⟩ := hinv p' n'
    have happ := idHistory_append s s' _ p' n' hhist
    rw [if_neg (fun hpn => hid ⟨hpn.1.symm, hpn.2.symm⟩), List.append_nil] at happ
    refine ⟨by rw [happ]; exact hc, ?_⟩
    intro row2 hrow2
    rw [hfiles, findRow_upsert_ne _ _ _ _ hne] at hrow2
    rw [happ]
    exact hlive row2 hrow2

/-- `FilesDB::delete` preserves the invariant. -/
theorem inv_delete {ts addr : String} {s : DbState} {p n : String} {v : Int}
    {s' : DbState} {r : FilesDbResponse}
    (hok : delete ts addr s p n v = .ok (s', r)) (hinv : Inv s) : Inv s' := by
  obtain ⟨row, hrow, hver, hr, hhist, hfiles⟩ := delete_ok_shape hok
  intro p' n'
  by_cases hid : p' = p ∧ n' = n
  · obtain ⟨rfl, rfl⟩ := hid
    obtain ⟨hc, hlive⟩ := hinv p' n'
    have happ := idHistory_append s s' _ p' n' hhist
    rw [if_pos ⟨rfl, rfl⟩] at happ
    have hlt : ∀ last, (idHistory s p' n').getLast? = some last →
        last.version < v + 1 := by
      intro last hlast
      obtain ⟨last', hlast', hlastv, _⟩ := hlive row hrow
      rw [hlast] at hlast'
      obtain rfl := Option.some.inj hlast'
      rw [hlastv, hver]
      omega
    refine ⟨by rw [happ]; exact vchain_append_one hc hlt, ?_⟩
    intro row2 hrow2
    rw [hfiles, findRow_delete_self] at hrow2
    cases hrow2
  · have hne : (⟨p', n'⟩ : Identity) ≠ ⟨p, n⟩ := identity_ne hid
    obtain ⟨hc, hlive⟩ := hinv p' n'
    have happ := idHistory_append s s' _ p' n' hhist
    rw [if_neg (fun hpn => hid ⟨hpn.1.symm, hpn.2.symm⟩), List.append_nil] at happ
    refine ⟨by rw [happ]; exact hc, ?_⟩
    intro row2 hrow2
    rw [hfiles, findRow_delete_ne _ _ _ hne] at hrow2
    rw [happ]
    exact hlive row2 hrow2

/-- `FilesDB::move_to` preserves the invariant. -/
theorem inv_move {digest : List Nat → String} {parseTs : String → Option String}
    {t ts addr : String} {s : DbState} {pf nf : String} {v : Int} {pt nt : String}
    {s' : DbState} {r : FilesDbResponse}
    (hok : moveTo digest parseTs t ts addr s pf nf v pt nt = .ok (s', r))
    (hinv : Inv s) : Inv s' := by
  obtain ⟨rowFrom, hsame, hrow, hver, hdest, hr, hhist, hfiles⟩ := moveTo_ok_shape hok
  have hstne : (⟨pf, nf⟩ : Identity) ≠ ⟨pt, nt⟩ :=
    fun he => hsame (by cases he; exact ⟨rfl, rfl⟩)
  have hmid : s'.history
      = (s.history ++ [⟨pf, nf, v + 1, ts, "MOVE_TO", addr, none,
          some (joinPath pt nt), none⟩]) ++ [⟨pt, nt, r.version, ts, "MOVE_FROM", addr,
          some (digest rowFrom.file), some (joinPath pf nf), some rowFrom.file⟩] := hhist
  intro p' n'
  have happA := idHistory_append s
    ⟨s.files, s.history ++ [⟨pf, nf, v + 1, ts, "MOVE_TO", addr, none,
      some (joinPath pt nt), none⟩]⟩ _ p' n' rfl
  have happB := idHistory_append
    ⟨s.files, s.history ++ [⟨pf, nf, v + 1, ts, "MOVE_TO", addr, none,
      some (joinPath pt nt), none⟩]⟩ s' _ p' n' hmid
  by_cases hidf : p' = pf ∧ n' = nf
  · obtain ⟨rfl, rfl⟩ := hidf
    obtain ⟨hc, hlive⟩ := hinv p' n'
    rw [if_pos ⟨rfl, rfl⟩] at happA
    rw [if_neg (fun hpn => hsame ⟨hpn.2.symm, hpn.1.symm⟩), List.append_nil] at happB
    rw [happA] at happB
    have hlt : ∀ last, (idHistory s p' n').getLast? = some last →
        last.version < v + 1 := by
      intro last hlast
      obtain ⟨last', hlast', hlastv, _⟩ := hlive rowFrom hrow
      rw [hlast] at hlast'
      obtain rfl := Option.some.inj hlast'
      rw [hlastv, hver]
      omega
    refine ⟨by rw [happB]; exact vchain_append_one hc hlt, ?_⟩
    intro row2 hrow2
    rw [hfiles, findRow_upsert_ne _ _ _ _ hstne, findRow_delete_self] at hrow2
    cases hrow2
  · by_cases hidt : p' = pt ∧ n' = nt
    · obtain ⟨rfl, rfl⟩ := hidt
      obtain ⟨hc, hlive⟩ := hinv p' n'
      rw [if_neg (fun hpn => hidf ⟨hpn.1.symm, hpn.2.symm⟩), List.append_nil] at happA
      rw [if_pos ⟨rfl, rfl⟩] at happB
      rw [happA] at happB
      have hlt : ∀ last, (idHistory s p' n').getLast? = some last →
          last.version < r.version := by
        intro last hlast
        cases hgv : getHistoryVersion s p' n' with
        | some m =>
          have hgl := getHistoryVersion_of_vchain s p' n' hc
          rw [hgv, hlast] at hgl
          have hm : m = last.version := by simpa using hgl
          have hrv : r.version = m + 1 := by rw [hr]; simp [hgv]
          rw [hrv, ← hm]
          omega
        | none =>
          have hnil := (getHistoryVersion_none_iff s p' n').mp hgv
          rw [hnil] at hlast
          cases hlast
      refine ⟨by rw [happB]; exact vchain_append_one hc hlt, ?_⟩
      intro row2 hrow2
      rw [hfiles, findRow_upsert_self] at hrow2
      obtain rfl := Option.some.inj hrow2
      have hl : (idHistory s' p' n').getLast? = some ⟨p', n', r.version, ts, "MOVE_FROM",
          addr, some (digest rowFrom.file), some (joinPath pf nf),
          some rowFrom.file⟩ := by
        rw [happB]
        exact List.getLast?_concat _
      exact ⟨_, hl, rfl, Or.inr (Or.inr rfl)⟩
    · have hnef : (⟨p', n'⟩ : Identity) ≠ ⟨pf, nf⟩ := identity_ne hidf
      have hnet : (⟨p', n'⟩ : Identity) ≠ ⟨pt, nt⟩ := identity_ne hidt
      obtain ⟨hc, hlive⟩ := hinv p' n'
      rw [if_neg (fun hpn => hidf ⟨hpn.1.symm, hpn.2.symm⟩), List.append_nil] at happA
      rw [if_neg (fun hpn => hidt ⟨hpn.1.symm, hpn.2.symm⟩), List.append_nil] at happB
      rw [happA] at happB
      refine ⟨by rw [happB]; exact hc, ?_⟩
      intro row2 hrow2
      rw [hfiles, findRow_upsert_ne _ _ _ _ hnet, findRow_delete_ne _ _ _ hnef] at hrow2
      rw [happB]
      exact hlive row2 hrow2

/-- Every reachable state satisfies the invariant. -/
theorem reachable_inv {s : DbState} (h : Reachable s) : Inv s := by
  induction h with
  | init => exact inv_init
  | step _ hstep ih =>
    cases hstep with
    | save _ _ _ _ _ _ _ _ _ _ hok => exact inv_save hok ih
    | delete _ _ _ _ _ _ _ _ hok => exact inv_delete hok ih
    | move _ _ _ _ _ _ _ _ _ _ _ _ _ hok => exact inv_move hok ih

/-- Claim C2 — after every sequence of successful `save`, `delete` and
`move_to` operations starting from the fresh store, every live identity's
current version equals the maximum version among its history rows, and the
last history row (the one of maximal version) is a non-terminal variant
(`CREATION`, `UPDATE` or `MOVE_FROM`). -/
theorem filesdb_live_invariant {s : DbState} (h : Reachable s) (p n : String)
    (row : FileRow) (hrow : findRow s.files ⟨p, n⟩ = some row) :
    (∀ e ∈ idHistory s p n, e.version ≤ row.version) ∧
    ∃ last, (idHistory s p n).getLast? = some last ∧ last.version = row.version ∧
      (last.operation = "CREATION" ∨ last.operation = "UPDATE" ∨
        last.operation = "MOVE_FROM") := by
  obtain ⟨hc, hlive⟩ := reachable_inv h p n
  obtain ⟨last, hlast, hlastv, hop⟩ := hlive row hrow
  exact ⟨fun e he => hlastv ▸ vchain_le_getLast hc hlast e he, last, hlast, hlastv, hop⟩

/-- Concrete check of `filesdb_live_invariant` after one save on the fresh
store. -/
theorem filesdb_live_invariant_witness :
    ∃ last,
      (idHistory ⟨[(⟨"p", "n"⟩, ⟨0, "T", "H", [1]⟩)],
        [⟨"p", "n", 0, "T", "CREATION", "A", some "H", none, some [1]⟩]⟩ "p" "n").getLast?
        = some last ∧
      last.version = (0 : Int) ∧
      (last.operation = "CREATION" ∨ last.operation = "UPDATE" ∨
        last.operation = "MOVE_FROM") :=
  (filesdb_live_invariant
    (Reachable.step Reachable.init
      (Step.save (fun _ => "H") "T" "A" "p" "n" [1] none DbState.init
        ⟨[(⟨"p", "n"⟩, ⟨0, "T", "H", [1]⟩)],
          [⟨"p", "n", 0, "T", "CREATION", "A", some "H", none, some [1]⟩]⟩
        ⟨0, "T", none⟩ (by rfl)))
    "p" "n" ⟨0, "T", "H", [1]⟩ (by rfl)).2

/-- Modelled from the spec: the versioned history entry type
`crate::log::FileLogEntryType` that `FilesDB::decode_history_row` builds via
`FileLogEntryType::new` is missing from the sources — `src/files/src/log.rs`
holds an older enum (no `new`, `Modification` instead of `Update`, no
`version` on `Deletion`/`MoveTo`) that does not compile against
`src/files/src/db.rs` and its tests. Variants and fields follow the spec's
§4.1 "Variants and required fields" table. -/
inductive FileLogEntryTypeV where
  | Creation (version : Nat) (hash : String)
  | Update (version : Nat) (hash : String)
  | Deletion (version : Nat)
  | MoveTo (version : Nat) (pathTo : String)
  | MoveFrom (version : Nat) (hash : String) (pathFrom : String)
deriving DecidableEq, Repr

/-- Modelled from the spec: `FileLogEntryType::new(operation, version, hash,
path)` maps an operation tag (§6: `CREATION | UPDATE | DELETION | MOVE_TO |
MOVE_FROM`) and the nullable `HASH` / `OLD_OR_NEW_PATH` columns to an entry,
failing when a required field is missing, a forbidden one is present, or the
tag is unknown (§4.1's required/forbidden table). -/
def FileLogEntryTypeV.new (operation : String) (version : Nat) (hash : Option String)
    (path : Option String) : Except String FileLogEntryTypeV :=
  match operation, hash, path with
  | "CREATION", some h, none => .ok (.Creation version h)
  | "UPDATE", some h, none => .ok (.Update version h)
  | "DELETION", none, none => .ok (.Deletion version)
  | "MOVE_TO", none, some p => .ok (.MoveTo version p)
  | "MOVE_FROM", some h, some p => .ok (.MoveFrom version h p)
  | _, _, _ => .error "invalid history entry"

/-- The version recorded in a decoded entry. -/
def FileLogEntryTypeV.version : FileLogEntryTypeV → Nat
  | .Creation v _ => v
  | .Update v _ => v
  | .Deletion v => v
  | .MoveTo v _ => v
  | .MoveFrom v _ _ => v

/-- A decoded history entry (timestamp and address carried as their modelled
values). -/
structure FileLogEntryV where
  timestamp : String
  address : String
  entry : FileLogEntryTypeV
deriving DecidableEq, Repr

/-- The decoded history `FileLog` returned by `FilesDB::get_history`. -/
structure FileLogV where
  entries : List FileLogEntryV
deriving DecidableEq, Repr

/-- `FilesDB::decode_history_row` (`src/files/src/db.rs` lines 508-537):
reads `VERSION` as `u32` (failing outside `[0, 2^32)`), parses timestamp and
address (`parseTs` / `parseAddr` stand for the chrono and `IpAddr` parsers),
and builds the entry with `FileLogEntryType::new`; any failure drops the
row. -/
def decodeHistoryRow (parseTs parseAddr : String → Option String) (r : HistRow) :
    Option FileLogEntryV :=
  if 0 ≤ r.version ∧ r.version < 2 ^ 32 then
    match parseTs r.timestamp with
    | none => none
    | some ts =>
      match parseAddr r.ipAddress with
      | none => none
      | some addr =>
        match FileLogEntryTypeV.new r.operation r.version.toNat r.hash r.oldOrNewPath with
        | .ok e => some ⟨ts, addr, e⟩
        | .error _ => none
  else none

/-- Insertion into a version-sorted row list. -/
def insertByVersion (r : HistRow) : List HistRow → List HistRow
  | [] => [r]
  | x :: xs => if r.version < x.version then r :: x :: xs else x :: insertByVersion r xs

/-- Model of the `order by VERSION` clause of `SQL_SELECT_HISTORY` (a stable
sort; primary-key uniqueness makes ties impossible in real tables). -/
def sortByVersion : List HistRow → List HistRow
  | [] => []
  | x :: xs => insertByVersion x (sortByVersion xs)

/-- `FilesDB::get_history_inner`: the identity's rows in ascending version
order, each decoded by `decode_history_row`, invalid rows dropped. -/
def getHistoryInner (parseTs parseAddr : String → Option String) (s : DbState)
    (p n : String) : FileLogV :=
  ⟨(sortByVersion (idHistory s p n)).filterMap (decodeHistoryRow parseTs parseAddr)⟩

/-- `FilesDB::get_history` (`src/files/src/db.rs` lines 444-458): `NotFound`
exactly when the decoded log is empty. -/
def getHistory (parseTs parseAddr : String → Option String) (s : DbState)
    (p n : String) : Except RouterError FileLogV :=
  let log := getHistoryInner parseTs parseAddr s p n
  if log.entries = [] then .error .NotFound else .ok log

theorem insertByVersion_perm (r : HistRow) :
    ∀ l, List.Perm (insertByVersion r l) (r :: l) := by
  intro l
  induction l with
  | nil => exact List.Perm.refl _
  | cons x xs ih =>
    rw [insertByVersion]
    by_cases hlt : r.version < x.version
    · rw [if_pos hlt]
    · rw [if_neg hlt]
      exact (List.Perm.cons x ih).trans (List.Perm.swap r x xs)

theorem sortByVersion_perm : ∀ l, List.Perm (sortByVersion l) l := by
  intro l
  induction l with
  | nil => exact List.Perm.refl _
  | cons x xs ih =>
    rw [sortByVersion]
    exact (insertByVersion_perm x (sortByVersion xs)).trans (List.Perm.cons x ih)

theorem insertByVersion_sorted (r : HistRow) {l : List HistRow}
    (hs : l.Pairwise (fun a b => a.version ≤ b.version)) :
    (insertByVersion r l).Pairwise (fun a b => a.version ≤ b.version) := by
  induction l with
  | nil => simp [insertByVersion]
  | cons x xs ih =>
    rw [insertByVersion]
    rcases List.pairwise_cons.mp hs with ⟨hx, hxs⟩
    by_cases hlt : r.version < x.version
    · rw [if_pos hlt]
      refine List.pairwise_cons.mpr ⟨?_, hs⟩
      intro y hy
      rcases List.mem_cons.mp hy with rfl | hy'
      · omega
      · exact le_trans (le_of_lt hlt) (hx y hy')
    · rw [if_neg hlt]
      refine List.pairwise_cons.mpr ⟨?_, ih hxs⟩
      intro y hy
      have hy' := (insertByVersion_perm r xs).mem_iff.mp hy
      rcases List.mem_cons.mp hy' with rfl | hy''
      · omega
      · exact hx y hy''

theorem sortByVersion_sorted : ∀ l : List HistRow,
    (sortByVersion l).Pairwise (fun a b => a.version ≤ b.version) := by
  intro l
  induction l with
  | nil => simp [sortByVersion]
  | cons x xs ih =>
    rw [sortByVersion]
    exact insertByVersion_sorted x ih

theorem entryTypeV_new_version {op : String} {v : Nat} {h : Option String}
    {pth : Option String} {e : FileLogEntryTypeV}
    (hok : FileLogEntryTypeV.new op v h pth = .ok e) : e.version = v := by
  unfold FileLogEntryTypeV.new at hok
  split at hok <;> cases hok <;> rfl

theorem decodeHistoryRow_version {parseTs parseAddr : String → Option String}
    {r : HistRow} {e : FileLogEntryV}
    (h : decodeHistoryRow parseTs parseAddr r = some e) :
    0 ≤ r.version ∧ e.entry.version = r.version.toNat := by
  unfold decodeHistoryRow at h
  split at h
  case isFalse => cases h
  case isTrue hb =>
    split at h
    · cases h
    · split at h
      · cases h
      · split at h
        case _ e' hnew =>
          obtain rfl := Option.some.inj h
          exact ⟨hb.1, entryTypeV_new_version hnew⟩
        · cases h

theorem pairwise_filterMap_of {α β : Type _} {R : α → α → Prop} {S : β → β → Prop}
    (f : α → Option β)
    (hf : ∀ a b a' b', f a = some a' → f b = some b' → R a b → S a' b') :
    ∀ {l : List α}, l.Pairwise R → (l.filterMap f).Pairwise S := by
  intro l hl
  induction hl with
  | nil => simp
  | @cons a l ha _ ih =>
    rw [List.filterMap_cons]
    cases hfa : f a with
    | none => exact ih
    | some b =>
      refine List.pairwise_cons.mpr ⟨?_, ih⟩
      intro y hy
      obtain ⟨x, hx, hfx⟩ := List.mem_filterMap.mp hy
      exact hf a x b y hfa hfx (ha x hx)

/-- Claim C9 — `FilesDB::get_history` fails with `NotFound` exactly when the
identity's decoded history is empty (so an empty history is never returned
as a valid log), and a returned log lists the entries in strictly ascending
version order. The hypothesis is the `(PATH, NAME, VERSION)` primary key of
the `FILES_HISTORY` table. -/
theorem filesdb_get_history_contract (parseTs parseAddr : String → Option String)
    (s : DbState) (p n : String)
    (hpk : s.history.Pairwise
      (fun a b => ¬(a.path = b.path ∧ a.name = b.name ∧ a.version = b.version))) :
    (getHistory parseTs parseAddr s p n = .error RouterError.NotFound ↔
      (getHistoryInner parseTs parseAddr s p n).entries = []) ∧
    ∀ log, getHistory parseTs parseAddr s p n = .ok log →
      log = getHistoryInner parseTs parseAddr s p n ∧
      log.entries ≠ [] ∧
      log.entries.Pairwise (fun a b => a.entry.version < b.entry.version) := by
  have horder : (getHistoryInner parseTs parseAddr s p n).entries.Pairwise
      (fun a b => a.entry.version < b.entry.version) := by
    have hsub : (idHistory s p n).Pairwise
        (fun a b => ¬(a.path = b.path ∧ a.name = b.name ∧ a.version = b.version)) :=
      hpk.sublist (List.filter_sublist _)
    have hmem : ∀ x ∈ idHistory s p n, x.path = p ∧ x.name = n := by
      intro x hx
      have := (List.mem_filter.mp hx).2
      simpa using this
    have hperm := sortByVersion_perm (idHistory s p n)
    have hsorted := sortByVersion_sorted (idHistory s p n)
    have hsym : ∀ {x y : HistRow},
        ¬(x.path = y.path ∧ x.name = y.name ∧ x.version = y.version) →
        ¬(y.path = x.path ∧ y.name = x.name ∧ y.version = x.version) := by
      intro x y hab hcontra
      exact hab ⟨hcontra.1.symm, hcontra.2.1.symm, hcontra.2.2.symm⟩
    have hne : (sortByVersion (idHistory s p n)).Pairwise
        (fun a b => ¬(a.path = b.path ∧ a.name = b.name ∧ a.version = b.version)) :=
      (hperm.pairwise_iff hsym).mpr hsub
    have hstrict : (sortByVersion (idHistory s p n)).Pairwise
        (fun a b => a.version < b.version) := by
      refine (hsorted.and hne).imp_of_mem ?_
      intro a b hma hmb hab
      have hpa := hmem a (hperm.mem_iff.mp hma)
      have hpb := hmem b (hperm.mem_iff.mp hmb)
      rcases hab with ⟨hle, hnd⟩
      have : ¬a.version = b.version :=
        fun hv => hnd ⟨hpa.1.trans hpb.1.symm, hpa.2.trans hpb.2.symm, hv⟩
      omega
    exact pairwise_filterMap_of _
      (by
        intro a b a' b' hfa hfb hab
        obtain ⟨ha0, hav⟩ := decodeHistoryRow_version hfa
        obtain ⟨hb0, hbv⟩ := decodeHistoryRow_version hfb
        rw [hav, hbv]
        omega) hstrict
  constructor
  · unfold getHistory
    by_cases hc : (getHistoryInner parseTs parseAddr s p n).entries = []
    · simp [hc]
    · simp [hc]
  · intro log hok
    simp only [getHistory] at hok
    split at hok
    · cases hok
    case _ hc =>
      obtain rfl := Except.ok.inj hok
      exact ⟨rfl, hc, horder⟩

/-- Concrete check of `filesdb_get_history_contract` on a one-entry store. -/
theorem filesdb_get_history_contract_witness :
    getHistory (fun x => some x) (fun x => some x)
        ⟨[(⟨"p", "n"⟩, ⟨0, "T", "H", [1]⟩)],
          [⟨"p", "n", 0, "T", "CREATION", "A", some "H", none, some [1]⟩]⟩ "p" "n"
        = .error RouterError.NotFound ↔
      (getHistoryInner (fun x => some x) (fun x => some x)
        ⟨[(⟨"p", "n"⟩, ⟨0, "T", "H", [1]⟩)],
          [⟨"p", "n", 0, "T", "CREATION", "A", some "H", none, some [1]⟩]⟩ "p" "n").entries
        = [] :=
  (filesdb_get_history_contract (fun x => some x) (fun x => some x)
    ⟨[(⟨"p", "n"⟩, ⟨0, "T", "H", [1]⟩)],
      [⟨"p", "n", 0, "T", "CREATION", "A", some "H", none, some [1]⟩]⟩ "p" "n"
    (by decide)).1

/-- Outcome of an HTTP handler run: a Rust panic, a response (status plus the
headers the handler sets), or a taxonomy error. -/
inductive HandlerOutcome where
  | panic
  | ok (status : Nat) (etag : String) (lastModified : String)
      (contentDisposition : String) (body : Option (List Nat))
  | error (e : RouterError)
deriving DecidableEq, Repr

/-- The `etag` header set by `get_response_builder`
(`src/files/src/handlers.rs` lines 32-37): the version as a quoted decimal. -/
def etagHeader (v : Int) : String := "\"" ++ toString v ++ "\""

/-- `GetFileHandler::handle` (`src/files/src/handlers.rs` lines 72-107),
which serves both GET and HEAD (`isGet` is `request.method() == GET`), after
the URL has been split into `(file_path, file_name)`. `renderRfc2822` stands
for chrono's `to_rfc2822` rendering of the revision timestamp.
`logInfoEnabled` models whether info-level logging is active: only then does
the `log::info!` call evaluate its argument
`data.file.as_ref().unwrap().len()`, whose `unwrap` panics when `data.file`
is `None` — which holds for every HEAD request, since the handler asks
`FilesDB::get` to omit the content. The GET body's `data.file.unwrap()` is
modelled the same way. -/
def handleGetFile (parseTs : String → Option String) (renderRfc2822 : String → String)
    (logInfoEnabled : Bool) (s : DbState) (isGet : Bool) (filePath fileName : String) :
    HandlerOutcome :=
  match get parseTs s filePath fileName isGet with
  | .error e => .error e
  | .ok data =>
    if logInfoEnabled ∧ data.file = none then .panic
    else if isGet then
      match data.file with
      | none => .panic
      | some f =>
        .ok 200 (etagHeader data.version) (renderRfc2822 data.timestamp)
          ("attachment; filename=\"" ++ fileName ++ "\"") (some f)
    else
      .ok 200 (etagHeader data.version) (renderRfc2822 data.timestamp)
        ("attachment; filename=\"" ++ fileName ++ "\"") none

/-- Claim C5 is a code bug — on a live identity, a HEAD request makes
`GetFileHandler::handle` panic whenever info-level logging is enabled: the
handler fetches the revision without content (`data.file = None`) and then
evaluates `data.file.as_ref().unwrap().len()` inside `log::info!`. With
logging disabled the handler does return 200 with an empty body and the
etag/last-modified/content-disposition headers, and a non-live identity gets
404, so the panic is the only divergence from the claim. -/
theorem files_head_handler_panics :
    handleGetFile (fun x => some x) (fun x => x) true
        ⟨[(⟨"keepass", "pdb.kdbx"⟩, ⟨0, "T", "H", [1, 2]⟩)],
          [⟨"keepass", "pdb.kdbx", 0, "T", "CREATION", "A", some "H", none, some [1, 2]⟩]⟩
        false "keepass" "pdb.kdbx" = .panic ∧
    handleGetFile (fun x => some x) (fun x => x) false
        ⟨[(⟨"keepass", "pdb.kdbx"⟩, ⟨0, "T", "H", [1, 2]⟩)],
          [⟨"keepass", "pdb.kdbx", 0, "T", "CREATION", "A", some "H", none, some [1, 2]⟩]⟩
        false "keepass" "pdb.kdbx"
      = .ok 200 "\"0\"" "T" "attachment; filename=\"pdb.kdbx\"" none ∧
    handleGetFile (fun x => some x) (fun x => x) true DbState.init false
        "keepass" "pdb.kdbx" = .error (.HandlerError 404 "Could not find file") := by
  refine ⟨rfl, ?_, rfl⟩
  rfl

end FilesDB

namespace CacheDb

/-- A row of the cache `FILES` table minus its `(PATH, NAME)` key
(`SQL_CREATE_FILES_TABLE` in `src/cache/src/db.rs`): nullable hash, sync
flag, nullable sync version and timestamp (the timestamp kept as its stored
text), nullable blob. -/
structure CacheRow where
  hash : Option String
  isSynced : Bool
  lastSyncedVersion : Option Int
  lastSyncedTimestamp : Option String
  file : Option (List Nat)
deriving DecidableEq, Repr

/-- The cache `FILES` table, keyed by `(PATH, NAME)`. -/
abbrev CacheState := List (FilesDB.Identity × CacheRow)

/-- `SyncInformation` of `src/cache/src/db.rs`. -/
structure SyncInformation where
  lastSyncedVersion : Int
  lastSyncedTimestamp : String
deriving DecidableEq, Repr

/-- `CacheDbFile` of `src/cache/src/db.rs` (lines 47-53). Its `hash` field is
a plain `String`: a row whose `HASH` column is NULL cannot be decoded into
it. -/
structure CacheDbFile where
  hash : String
  isSynced : Bool
  lastSyncedVersion : Option Int
  lastSyncedTimestamp : Option String
  file : Option (List Nat)
deriving DecidableEq, Repr

/-- Row lookup by primary key (`SQL_SELECT_FILE`). -/
def findCache (st : CacheState) (id : FilesDB.Identity) : Option CacheRow :=
  (st.find? (fun kv => kv.1 = id)).map (fun kv => kv.2)

/-- `CacheDb::save_inner_synchro` / `SQL_UPDATE_SYNCHRO`: insert the row as
synced, or on a key conflict overwrite hash, sync mark (true), sync fields
and content. Returns the changed-row count reported by sqlite. -/
def saveInnerSynchro (st : CacheState) (p n hash : String) (version : Int)
    (ts : String) (file : List Nat) : CacheState × Nat :=
  if st.any (fun kv => kv.1 = ⟨p, n⟩) then
    (st.map (fun kv => if kv.1 = ⟨p, n⟩ then
      (kv.1, ⟨some hash, true, some version, some ts, some file⟩) else kv), 1)
  else
    (st ++ [(⟨p, n⟩, ⟨some hash, true, some version, some ts, some file⟩)], 1)

/-- `CacheDb::save_inner_not_synchro` / `SQL_UPDATE_NOT_SYNCHRO`: insert the
row as not-synced with NULL sync fields; but on a key conflict the update
clause sets `HASH`, `IS_SYNCED=true` and `FILE` only, leaving
`LAST_SYNCED_VERSION`/`LAST_SYNCED_TIMESTAMP` as they were. -/
def saveInnerNotSynchro (st : CacheState) (p n hash : String) (file : List Nat) :
    CacheState × Nat :=
  if st.any (fun kv => kv.1 = ⟨p, n⟩) then
    (st.map (fun kv => if kv.1 = ⟨p, n⟩ then
      (kv.1, ⟨some hash, true, kv.2.lastSyncedVersion, kv.2.lastSyncedTimestamp,
        some file⟩) else kv), 1)
  else
    (st ++ [(⟨p, n⟩, ⟨some hash, false, none, none, some file⟩)], 1)

/-- `CacheDb::save` (`src/cache/src/db.rs` lines 130-164). -/
def save (digest : List Nat → String) (st : CacheState) (p n : String)
    (syncInformation : Option SyncInformation) (file : List Nat) :
    Except RouterError CacheState :=
  let hash := digest file
  let res := match syncInformation with
    | some si => saveInnerSynchro st p n hash si.lastSyncedVersion
        si.lastSyncedTimestamp file
    | none => saveInnerNotSynchro st p n hash file
  if res.2 = 0 then .error (.HandlerError 500 "Failed to update the file")
  else .ok res.1

/-- `CacheDb::delete_inner_synchro` / `SQL_DELETE_SYNCHRO`: tombstone the row
(NULL hash and content), synced with the given version and timestamp. -/
def deleteInnerSynchro (st : CacheState) (p n : String) (version : Int) (ts : String) :
    CacheState × Nat :=
  (st.map (fun kv => if kv.1 = ⟨p, n⟩ then
    (kv.1, ⟨none, true, some version, some ts, none⟩) else kv),
   st.countP (fun kv => kv.1 = ⟨p, n⟩))

/-- `CacheDb::delete_inner_not_synchro` / `SQL_DELETE_NOT_SYNCHRO`: tombstone
the row, not-synced; the sync columns are left as they were. -/
def deleteInnerNotSynchro (st : CacheState) (p n : String) : CacheState × Nat :=
  (st.map (fun kv => if kv.1 = ⟨p, n⟩ then
    (kv.1, ⟨none, false, kv.2.lastSyncedVersion, kv.2.lastSyncedTimestamp, none⟩)
    else kv),
   st.countP (fun kv => kv.1 = ⟨p, n⟩))

/-- `CacheDb::delete` (`src/cache/src/db.rs` lines 101-128): `NotFound` when
no row was updated. -/
def delete (st : CacheState) (p n : String)
    (syncInformation : Option SyncInformation) : Except RouterError CacheState :=
  let res := match syncInformation with
    | some si => deleteInnerSynchro st p n si.lastSyncedVersion si.lastSyncedTimestamp
    | none => deleteInnerNotSynchro st p n
  if res.2 = 0 then .error .NotFound else .ok res.1

/-- `CacheDb::get` / `get_inner` (`src/cache/src/db.rs` lines 92-99 and
166-182). A missing row surfaces as the 500 `HandlerError` produced by
`map_sqlite_result` (the code carries a `TODO check if we have a file` and
never maps the no-row case to `NotFound`), and a NULL `HASH` column cannot be
decoded into `CacheDbFile`'s non-nullable `hash`, which is the same 500
error. An unparsable sync timestamp is silently dropped (`parseTs` stands
for the chrono parser). -/
def get (parseTs : String → Option String) (st : CacheState) (p n : String) :
    Except RouterError CacheDbFile :=
  match findCache st ⟨p, n⟩ with
  | none => .error (.HandlerError 500 "Failed to ")
  | some row =>
    match row.hash with
    | none => .error (.HandlerError 500 "Failed to ")
    | some h =>
      .ok ⟨h, row.isSynced, row.lastSyncedVersion,
        row.lastSyncedTimestamp.bind (fun t => parseTs t), row.file⟩

/-- Claim C4 is a code bug — `CacheDb::save` without sync information marks
the row not-synced with cleared sync fields only on the insert path; on an
existing row, `SQL_UPDATE_NOT_SYNCHRO`'s conflict clause sets
`IS_SYNCED=true` and leaves the old sync version and timestamp in place
(spec §9 records this divergence and declares §4.3 canonical). Below, the
first save (with sync info) creates a synced row, and the second save
(without sync info) stores the new content and hash but leaves the row
marked synced with the stale sync fields; the last conjunct shows the insert
path does behave as claimed. -/
theorem cache_save_without_sync_info_bug :
    save (fun l => if l = [1] then "H1" else "H2") [] "p" "n" (some ⟨3, "S"⟩) [1]
      = .ok [(⟨"p", "n"⟩, ⟨some "H1", true, some 3, some "S", some [1]⟩)] ∧
    save (fun l => if l = [1] then "H1" else "H2")
        [(⟨"p", "n"⟩, ⟨some "H1", true, some 3, some "S", some [1]⟩)] "p" "n" none [2]
      = .ok [(⟨"p", "n"⟩, ⟨some "H2", true, some 3, some "S", some [2]⟩)] ∧
    save (fun l => if l = [1] then "H1" else "H2") [] "p" "n" none [2]
      = .ok [(⟨"p", "n"⟩, ⟨some "H2", false, none, none, some [2]⟩)] := by
  refine ⟨?_, ?_, ?_⟩ <;> rfl

/-- Claim C6 is a code bug — `CacheDb::get` never fails with `NotFound`: a
missing row is mapped to `HandlerError 500` by `map_sqlite_result` (the code
carries a `TODO check if we have a file`), and after a successful
`CacheDb::delete` the tombstone row has a NULL hash that cannot be decoded
into `CacheDbFile`'s non-nullable `hash : String`, so the subsequent get
fails with the same 500 instead of returning the tombstone. -/
theorem cache_get_not_found_bug :
    get (fun x => some x) [] "p" "n" = .error (.HandlerError 500 "Failed to ") ∧
    delete [(⟨"p", "n"⟩, ⟨some "H", false, none, none, some [1]⟩)] "p" "n" none
      = .ok [(⟨"p", "n"⟩, ⟨none, false, none, none, none⟩)] ∧
    get (fun x => some x) [(⟨"p", "n"⟩, ⟨none, false, none, none, none⟩)] "p" "n"
      = .error (.HandlerError 500 "Failed to ") := by
  refine ⟨?_, ?_, ?_⟩ <;> rfl

end CacheDb

namespace Log

/-- `FileLogEntryType` of `src/files/src/log.rs` (lines 11-33): the entry
enum used by the text codec, the JSON codec and the log comparator. Hashes
and paths are `List Char` (the codec inspects them character by character).
In this enum `Deletion` and `MoveTo` carry no version, and the update
variant is named `Modification`. -/
inductive FileLogEntryType where
  | Creation (version : Nat) (hash : List Char)
  | Deletion
  | Modification (version : Nat) (hash : List Char)
  | MoveTo (pathTo : List Char)
  | MoveFrom (version : Nat) (hash : List Char) (pathFrom : List Char)
deriving DecidableEq, Repr

/-- `FileLogEntry` of `src/files/src/log.rs`: the timestamp
(`chrono::DateTime<Utc>`) and address (`IpAddr`) types are kept as
parameters; the comparator instantiates `T` with an integer timeline. -/
structure FileLogEntry (T A : Type) where
  timestamp : T
  address : A
  entry : FileLogEntryType
deriving DecidableEq, Repr

/-- `FileLog` of `src/files/src/log.rs`. -/
structure FileLog (T A : Type) where
  entries : List (FileLogEntry T A)
deriving DecidableEq, Repr

/-- Decimal digit characters, as Rust's `Display` for `u32` emits them. -/
def digitChar (d : Nat) : Char :=
  match d with
  | 0 => '0'
  | 1 => '1'
  | 2 => '2'
  | 3 => '3'
  | 4 => '4'
  | 5 => '5'
  | 6 => '6'
  | 7 => '7'
  | 8 => '8'
  | _ => '9'

/-- Fuel-driven decimal rendering; the fuel only drives termination and
`n + 1` is always enough. -/
def renderNatAux : Nat → Nat → List Char
  | 0, _ => []
  | fuel + 1, n =>
    if n < 10 then [digitChar n]
    else renderNatAux fuel (n / 10) ++ [digitChar (n % 10)]

/-- Model of Rust's `write!(…, "{}", version)` for a `u32`. -/
def renderNat (n : Nat) : List Char := renderNatAux (n + 1) n

/-- Numeric value of a digit character. -/
def digitVal (c : Char) : Nat := c.toNat - 48

/-- Value of a digit string, most significant digit first. -/
def digitsVal (cs : List Char) : Nat := cs.foldl (fun a c => 10 * a + digitVal c) 0

/-- Rust's `str::parse::<u32>()`: an optional leading `'+'`, then at least
one digit, the value within the `u32` range (a `'-'` or any other character
is an invalid digit for an unsigned parse). -/
def parseU32 (cs : List Char) : Option Nat :=
  let ds := if cs.head? = some '+' then cs.tail else cs
  if ds = [] then none
  else if ds.all Char.isDigit then
    if digitsVal ds < 2 ^ 32 then some (digitsVal ds) else none
  else none

/-- The regex `\s` class (ASCII whitespace: space, tab, CR, LF). -/
def isWs (c : Char) : Bool := c.isWhitespace

/-- The regex `[^ ]` class. -/
def notSpace (c : Char) : Bool := c != ' '

/-- The regex `[^\]]` class. -/
def notRBracket (c : Char) : Bool := c != ']'

/-- The regex `.` class (anything but a newline). -/
def notNl (c : Char) : Bool := c != '\n'

/-- The regex `[^:]` class. -/
def notColon (c : Char) : Bool := c != ':'

/-- The regex `[A-z]` class of the entry-type pattern — the full ASCII range
from `'A'` to `'z'`, which also contains `'['`, `']'`, `'^'`, `'_'` and
the backtick. -/
def isAz (c : Char) : Bool := 'A' ≤ c && c ≤ 'z'

/-- Ordered choice: the first candidate on which `f` succeeds, in the order
a backtracking (leftmost-first) regex engine tries them. -/
def firstSome {α β : Type _} (f : α → Option β) : List α → Option β
  | [] => none
  | a :: as =>
    match f a with
    | some b => some b
    | none => firstSome f as

/-- Length of the maximal run of `p`-characters at the front. -/
def runLen (p : Char → Bool) (cs : List Char) : Nat := (cs.takeWhile p).length

/-- Split candidates for a greedy `p*`: longest match first, down to the
empty match. -/
def greedyStarCands (p : Char → Bool) (cs : List Char) : List (List Char × List Char) :=
  ((List.range (runLen p cs + 1)).reverse).map (fun k => (cs.take k, cs.drop k))

/-- Split candidates for a greedy `p+`: longest match first, at least one
character. -/
def greedyPlusCands (p : Char → Bool) (cs : List Char) : List (List Char × List Char) :=
  ((List.range' 1 (runLen p cs)).reverse).map (fun k => (cs.take k, cs.drop k))

/-- A literal character atom: consume `c` or fail. -/
def expectChar (c : Char) : List Char → Option (List Char)
  | x :: rest => if x = c then some rest else none
  | [] => none

/-- A greedy `p*` followed by the continuation `k` on (capture, rest),
trying the longest split first. -/
def starCapture {β : Type _} (p : Char → Bool) (k : List Char → List Char → Option β)
    (r : List Char) : Option β :=
  firstSome (fun s => k s.1 s.2) (greedyStarCands p r)

/-- A greedy `p+` followed by the continuation `k` on (capture, rest),
trying the longest split first. -/
def plusCapture {β : Type _} (p : Char → Bool) (k : List Char → List Char → Option β)
    (r : List Char) : Option β :=
  firstSome (fun s => k s.1 s.2) (greedyPlusCands p r)

/-- The group `(?P<entry_type>.+\])`: a greedy run of `.` backtracking to a
`']'`; the capture includes the bracket. -/
def dotPlusBracket (r : List Char) : Option (List Char) :=
  firstSome (fun s => if s.2.head? = some ']' then some (s.1 ++ [']']) else none)
    (greedyPlusCands notNl r)

/-- The tail `(?P<values>.*)\]`: a greedy run of `.` backtracking to a
`']'`; the capture excludes the bracket. -/
def starBracket (r : List Char) : Option (List Char) :=
  firstSome (fun s => if s.2.head? = some ']' then some s.1 else none)
    (greedyStarCands notNl r)

/-- The captures of the `FileLogEntry::decode` regex
`^\s*(?P<timestamp>[^ ]+)\s+\[(?P<address>[^\]]+)\]\s+(?P<entry_type>.+\])`
(`src/files/src/log.rs` line 162), with the engine's greedy backtracking
made explicit by the ordered choices of the combinators. -/
def entryLineCaptures (cs : List Char) : Option (List Char × List Char × List Char) :=
  starCapture isWs (fun _ r0 =>
    plusCapture notSpace (fun ts r1 =>
      plusCapture isWs (fun _ r2 =>
        (expectChar '[' r2).bind (fun r3 =>
          plusCapture notRBracket (fun addr r4 =>
            (expectChar ']' r4).bind (fun r5 =>
              plusCapture isWs (fun _ r6 =>
                (dotPlusBracket r6).map (fun entry => (ts, addr, entry)))
                r5))
            r3))
        r1)
      r0)
    cs

/-- The captures of the `FileLogEntryType::decode` regex
`^(?P<type>[A-z]+)\[(?P<values>.*)\]` (`src/files/src/log.rs` line 92). -/
def entryTypeCaptures (cs : List Char) : Option (List Char × List Char) :=
  plusCapture isAz (fun ty r1 =>
    (expectChar '[' r1).bind (fun r2 =>
      (starBracket r2).map (fun vals => (ty, vals))))
    cs

/-- The captures of the anchored values regex
`^((?P<version>[^:]*):(?P<hash>[^:]*)(:(?P<path>.+))?)?$`
(`src/files/src/log.rs` line 95). An empty payload matches with every group
absent; a nonempty payload needs a colon, splits `version` before the first
colon and `hash` before the second, and an optional `:path` tail must be
nonempty and newline-free (`.+` up to the `$` anchor); otherwise there is no
match at all. -/
def valuesCaptures (cs : List Char) :
    Option (Option (List Char) × Option (List Char) × Option (List Char)) :=
  if cs = [] then some (none, none, none)
  else
    (expectChar ':' (cs.dropWhile notColon)).bind (fun rest =>
      let ver := cs.takeWhile notColon
      let hash := rest.takeWhile notColon
      let rest2 := rest.dropWhile notColon
      if rest2 = [] then some (some ver, some hash, none)
      else
        (expectChar ':' rest2).bind (fun path =>
          if path ≠ [] ∧ '\n' ∉ path then some (some ver, some hash, some path)
          else none))

/-- `FileLogEntryType::encode` (`src/files/src/log.rs` lines 62-88). -/
def FileLogEntryType.encode : FileLogEntryType → List Char
  | .Creation version hash => "Creation[".toList ++ renderNat version ++ ':' :: hash ++ [']']
  | .Deletion => "Deletion[]".toList
  | .Modification version hash =>
    "Modification[".toList ++ renderNat version ++ ':' :: hash ++ [']']
  | .MoveTo pathTo => "MoveTo[::".toList ++ pathTo ++ [']']
  | .MoveFrom version hash pathFrom =>
    "MoveFrom[".toList ++ renderNat version ++ ':' :: hash ++ ':' :: pathFrom ++ [']']

/-- The `match &captures["type"]` dispatch of `FileLogEntryType::decode`
(`src/files/src/log.rs` lines 111-146): `version` is the parsed `u32` (a
parse failure is a missing version, not a regex failure). -/
def decodeDispatch (ty : List Char) (version : Option Nat)
    (hashS pathS : Option (List Char)) : Option FileLogEntryType :=
  if ty = "Creation".toList then
    match version, hashS with
    | some v, some h => some (.Creation v h)
    | _, _ => none
  else if ty = "Modification".toList then
    match version, hashS with
    | some v, some h => some (.Modification v h)
    | _, _ => none
  else if ty = "Deletion".toList then some .Deletion
  else if ty = "MoveTo".toList then
    match pathS with
    | some p => some (.MoveTo p)
    | none => none
  else if ty = "MoveFrom".toList then
    match version, hashS, pathS with
    | some v, some h, some p => some (.MoveFrom v h p)
    | _, _, _ => none
  else none

/-- `FileLogEntryType::decode` (`src/files/src/log.rs` lines 90-149): regex
captures, then values parsing, then the dispatch on the type name. -/
def FileLogEntryType.decode (cs : List Char) : Option FileLogEntryType :=
  (entryTypeCaptures cs).bind (fun tv =>
    (valuesCaptures tv.2).bind (fun vhp =>
      decodeDispatch tv.1 (vhp.1.bind parseU32) vhp.2.1 vhp.2.2))

/-- `FileLogEntry::encode` (`src/files/src/log.rs` lines 153-158) without the
trailing `'\n'` — the line as the decoder receives it. `renderTs` stands for
the `{:?}` rendering of `chrono::DateTime<Utc>` and `renderAddr` for that of
`IpAddr`. -/
def FileLogEntry.encodeLine {T A : Type} (renderTs : T → List Char)
    (renderAddr : A → List Char) (e : FileLogEntry T A) : List Char :=
  renderTs e.timestamp ++ ' ' :: '[' :: renderAddr e.address ++ ']' :: ' ' ::
    FileLogEntryType.encode e.entry

/-- `FileLogEntry::decode` (`src/files/src/log.rs` lines 160-182): the line
regex captures, then timestamp, address and entry parsing. `parseTs` stands
for `chrono::DateTime::parse_from_rfc3339` and `parseAddr` for
`IpAddr::from_str`. -/
def FileLogEntry.decodeLine {T A : Type} (parseTs : List Char → Option T)
    (parseAddr : List Char → Option A) (cs : List Char) : Option (FileLogEntry T A) :=
  (entryLineCaptures cs).bind (fun c =>
    (parseTs c.1).bind (fun ts =>
      (parseAddr c.2.1).bind (fun addr =>
        (FileLogEntryType.decode c.2.2).map (fun entry => ⟨ts, addr, entry⟩))))

theorem digitChar_mem (d : Nat) :
    digitChar d ∈ (['0', '1', '2', '3', '4', '5', '6', '7', '8', '9'] : List Char) := by
  unfold digitChar
  split <;> decide

theorem digit_props {c : Char}
    (h : c ∈ (['0', '1', '2', '3', '4', '5', '6', '7', '8', '9'] : List Char)) :
    c.isDigit = true ∧ notColon c = true ∧ c ≠ '\n' ∧ c ≠ '+' ∧ isAz c = false ∧
      isWs c = false ∧ notSpace c = true ∧ notRBracket c = true ∧ notNl c = true ∧
      c ≠ '[' := by
  fin_cases h <;> decide

theorem digitVal_digitChar {d : Nat} (h : d < 10) : digitVal (digitChar d) = d := by
  interval_cases d <;> decide

theorem digitsVal_append (xs : List Char) (c : Char) :
    digitsVal (xs ++ [c]) = 10 * digitsVal xs + digitVal c := by
  unfold digitsVal
  rw [List.foldl_append]
  rfl

theorem renderNatAux_spec : ∀ fuel n, n < fuel →
    renderNatAux fuel n ≠ [] ∧
    (∀ c ∈ renderNatAux fuel n,
      c ∈ (['0', '1', '2', '3', '4', '5', '6', '7', '8', '9'] : List Char)) ∧
    digitsVal (renderNatAux fuel n) = n := by
  intro fuel
  induction fuel with
  | zero => intro n h; omega
  | succ fuel ih =>
    intro n h
    rw [renderNatAux]
    by_cases h10 : n < 10
    · rw [if_pos h10]
      refine ⟨by simp, ?_, ?_⟩
      · intro c hc
        rw [List.mem_singleton] at hc
        subst hc
        exact digitChar_mem n
      · have happ := digitsVal_append [] (digitChar n)
        rw [List.nil_append] at happ
        rw [happ, digitVal_digitChar h10]
        simp [digitsVal]
    · rw [if_neg h10]
      obtain ⟨hne, hmem, hval⟩ := ih (n / 10) (by omega)
      refine ⟨by simp, ?_, ?_⟩
      · intro c hc
        rcases List.mem_append.mp hc with hc | hc
        · exact hmem c hc
        · rw [List.mem_singleton] at hc
          subst hc
          exact digitChar_mem _
      · rw [digitsVal_append, hval, digitVal_digitChar (by omega : n % 10 < 10)]
        omega

theorem renderNat_spec (n : Nat) :
    renderNat n ≠ [] ∧
    (∀ c ∈ renderNat n,
      c ∈ (['0', '1', '2', '3', '4', '5', '6', '7', '8', '9'] : List Char)) ∧
    digitsVal (renderNat n) = n :=
  renderNatAux_spec (n + 1) n (by omega)

theorem parseU32_renderNat {n : Nat} (h : n < 2 ^ 32) :
    parseU32 (renderNat n) = some n := by
  obtain ⟨hne, hmem, hval⟩ := renderNat_spec n
  have hhd : ¬((renderNat n).head? = some '+') := by
    intro hcc
    cases hrn : renderNat n with
    | nil => exact hne hrn
    | cons c cs =>
      rw [hrn, List.head?_cons] at hcc
      have hc := hmem c (by rw [hrn]; exact List.mem_cons_self c cs)
      exact (digit_props hc).2.2.2.1 (Option.some.inj hcc)
  have hall : (renderNat n).all Char.isDigit = true :=
    List.all_eq_true.mpr (fun c hc => (digit_props (hmem c hc)).1)
  simp only [parseU32]
  rw [if_neg hhd, if_neg hne, if_pos hall, hval, if_pos h]

theorem takeWhile_all (p : Char → Bool) : ∀ xs : List Char, (∀ c ∈ xs, p c = true) →
    xs.takeWhile p = xs ∧ xs.dropWhile p = [] := by
  intro xs
  induction xs with
  | nil => intro _; exact ⟨rfl, rfl⟩
  | cons x xs ih =>
    intro hall
    have hx : p x = true := hall x (List.mem_cons_self x xs)
    obtain ⟨h1, h2⟩ := ih (fun c hc => hall c (List.mem_cons_of_mem _ hc))
    exact ⟨by rw [List.takeWhile_cons_of_pos hx, h1],
      by rw [List.dropWhile_cons_of_pos hx, h2]⟩

theorem takeWhile_split (p : Char → Bool) :
    ∀ (xs : List Char) (y : Char) (ys : List Char),
    (∀ c ∈ xs, p c = true) → p y = false →
    ((xs ++ y :: ys).takeWhile p = xs ∧ (xs ++ y :: ys).dropWhile p = y :: ys) := by
  intro xs
  induction xs with
  | nil =>
    intro y ys _ hy
    have hny : ¬(p y = true) := by rw [hy]; exact Bool.false_ne_true
    exact ⟨by rw [List.nil_append, List.takeWhile_cons_of_neg hny],
      by rw [List.nil_append, List.dropWhile_cons_of_neg hny]⟩
  | cons x xs ih =>
    intro y ys hall hy
    have hx : p x = true := hall x (List.mem_cons_self x xs)
    obtain ⟨h1, h2⟩ := ih y ys (fun c hc => hall c (List.mem_cons_of_mem _ hc)) hy
    exact ⟨by rw [List.cons_append, List.takeWhile_cons_of_pos hx, h1],
      by rw [List.cons_append, List.dropWhile_cons_of_pos hx, h2]⟩

theorem take_runLen (p : Char → Bool) : ∀ cs : List Char,
    cs.take (runLen p cs) = cs.takeWhile p ∧ cs.drop (runLen p cs) = cs.dropWhile p := by
  intro cs
  induction cs with
  | nil => exact ⟨rfl, rfl⟩
  | cons c cs ih =>
    cases hpc : p c with
    | true =>
      have ht : (c :: cs).takeWhile p = c :: cs.takeWhile p :=
        List.takeWhile_cons_of_pos hpc
      have hd : (c :: cs).dropWhile p = cs.dropWhile p :=
        List.dropWhile_cons_of_pos hpc
      unfold runLen at ih ⊢
      rw [ht, hd, List.length_cons, List.take_succ_cons, List.drop_succ_cons,
        ih.1, ih.2]
      exact ⟨rfl, rfl⟩
    | false =>
      have hnc : ¬(p c = true) := by rw [hpc]; exact Bool.false_ne_true
      have ht : (c :: cs).takeWhile p = [] := List.takeWhile_cons_of_neg hnc
      have hd : (c :: cs).dropWhile p = c :: cs := List.dropWhile_cons_of_neg hnc
      unfold runLen
      rw [ht, hd]
      exact ⟨rfl, rfl⟩

theorem firstSome_cons_some {α β : Type _} {f : α → Option β} {a : α} {tl : List α}
    {b : β} (h : f a = some b) : firstSome f (a :: tl) = some b := by
  unfold firstSome
  rw [h]

theorem firstSome_cons_none {α β : Type _} {f : α → Option β} {a : α} {tl : List α}
    (h : f a = none) : firstSome f (a :: tl) = firstSome f tl := by
  show (match f a with | some b => some b | none => firstSome f tl) = firstSome f tl
  rw [h]

theorem range_rev_succ (n : Nat) :
    (List.range (n + 1)).reverse = n :: (List.range n).reverse := by
  rw [List.range_succ, List.reverse_append]
  rfl

theorem range'_rev_succ (m : Nat) :
    (List.range' 1 (m + 1)).reverse = (m + 1) :: (List.range' 1 m).reverse := by
  rw [List.range'_concat, List.reverse_append]
  simp [Nat.add_comm]

theorem starCapture_first {β : Type _} (p : Char → Bool)
    (k : List Char → List Char → Option β) (r : List Char) {b : β}
    (hk : k (r.takeWhile p) (r.dropWhile p) = some b) : starCapture p k r = some b := by
  unfold starCapture greedyStarCands
  rw [range_rev_succ, List.map_cons]
  refine firstSome_cons_some ?_
  show k (r.take (runLen p r)) (r.drop (runLen p r)) = some b
  rw [(take_runLen p r).1, (take_runLen p r).2]
  exact hk

theorem plusCapture_first {β : Type _} (p : Char → Bool)
    (k : List Char → List Char → Option β) (r : List Char) {m : Nat}
    (hrun : runLen p r = m + 1) {b : β}
    (hk : k (r.takeWhile p) (r.dropWhile p) = some b) : plusCapture p k r = some b := by
  unfold plusCapture greedyPlusCands
  rw [hrun, range'_rev_succ, List.map_cons]
  refine firstSome_cons_some ?_
  show k (r.take (m + 1)) (r.drop (m + 1)) = some b
  rw [← hrun, (take_runLen p r).1, (take_runLen p r).2]
  exact hk

theorem starCands_concat (p : Char → Bool) (b : List Char) (x : Char)
    (hall : ∀ c ∈ b ++ [x], p c = true) :
    ∃ tl, greedyStarCands p (b ++ [x]) = (b ++ [x], []) :: (b, [x]) :: tl := by
  have hrun : runLen p (b ++ [x]) = b.length + 1 := by
    unfold runLen
    rw [(takeWhile_all p _ hall).1]
    simp
  unfold greedyStarCands
  rw [hrun, range_rev_succ, range_rev_succ, List.map_cons, List.map_cons,
    show b.length + 1 = (b ++ [x]).length from by simp, List.take_length,
    List.drop_length, List.take_left, List.drop_left]
  exact ⟨_, rfl⟩

theorem plusCands_concat (p : Char → Bool) (b : List Char) (x : Char) (hb : b ≠ [])
    (hall : ∀ c ∈ b ++ [x], p c = true) :
    ∃ tl, greedyPlusCands p (b ++ [x]) = (b ++ [x], []) :: (b, [x]) :: tl := by
  have hrun : runLen p (b ++ [x]) = b.length + 1 := by
    unfold runLen
    rw [(takeWhile_all p _ hall).1]
    simp
  obtain ⟨b0, brest, rfl⟩ := List.exists_cons_of_ne_nil hb
  unfold greedyPlusCands
  rw [hrun, show (b0 :: brest).length + 1 = brest.length + 1 + 1 from by simp,
    range'_rev_succ, range'_rev_succ, List.map_cons, List.map_cons,
    show brest.length + 1 + 1 = ((b0 :: brest) ++ [x]).length from by simp,
    List.take_length, List.drop_length,
    show brest.length + 1 = (b0 :: brest).length from by simp,
    List.take_left, List.drop_left]
  exact ⟨_, rfl⟩

theorem dotPlusBracket_concat (b : List Char) (hb : b ≠ []) (hnl : '\n' ∉ b) :
    dotPlusBracket (b ++ [']']) = some (b ++ [']']) := by
  have hall : ∀ c ∈ b ++ [']'], notNl c = true := by
    intro c hc
    rcases List.mem_append.mp hc with hc | hc
    · have hcne : c ≠ '\n' := fun e => hnl (e ▸ hc)
      simp [notNl, hcne]
    · rw [List.mem_singleton] at hc
      subst hc
      decide
  obtain ⟨tl, hcands⟩ := plusCands_concat notNl b ']' hb hall
  unfold dotPlusBracket
  rw [hcands]
  refine Eq.trans (firstSome_cons_none ?_) (firstSome_cons_some ?_)
  · show (if ([] : List Char).head? = some ']' then some ((b ++ [']']) ++ [']'])
        else none) = none
    rfl
  · show (if ([']'] : List Char).head? = some ']' then some (b ++ [']']) else none)
        = some (b ++ [']'])
    rfl

theorem starBracket_concat (b : List Char) (hnl : '\n' ∉ b) :
    starBracket (b ++ [']']) = some b := by
  have hall : ∀ c ∈ b ++ [']'], notNl c = true := by
    intro c hc
    rcases List.mem_append.mp hc with hc | hc
    · have hcne : c ≠ '\n' := fun e => hnl (e ▸ hc)
      simp [notNl, hcne]
    · rw [List.mem_singleton] at hc
      subst hc
      decide
  obtain ⟨tl, hcands⟩ := starCands_concat notNl b ']' hall
  unfold starBracket
  rw [hcands]
  refine Eq.trans (firstSome_cons_none ?_) (firstSome_cons_some ?_)
  · show (if ([] : List Char).head? = some ']' then some (b ++ [']']) else none) = none
    rfl
  · show (if ([']'] : List Char).head? = some ']' then some b else none) = some b
    rfl

theorem expectChar_cons_self (c : Char) (rest : List Char) :
    expectChar c (c :: rest) = some rest := by
  simp [expectChar]

theorem expectChar_cons_ne {c x : Char} (rest : List Char) (h : ¬x = c) :
    expectChar c (x :: rest) = none := by
  simp [expectChar, h]

theorem ws_false_notSpace {c : Char} (h : isWs c = false) : notSpace c = true := by
  by_cases hc : c = ' '
  · rw [hc] at h
    exact absurd h (by decide)
  · simp [notSpace, hc]

/-- The values regex on a `version:hash` payload (both groups colon-free). -/
theorem valuesCaptures_vh (ver h : List Char) (hverc : ∀ c ∈ ver, notColon c = true)
    (hhc : ∀ c ∈ h, notColon c = true) :
    valuesCaptures (ver ++ ':' :: h) = some (some ver, some h, none) := by
  have hsplit := takeWhile_split notColon ver ':' h hverc (by decide)
  have hnn : ¬(ver ++ ':' :: h = []) := by simp
  simp only [valuesCaptures]
  rw [if_neg hnn, hsplit.2, expectChar_cons_self]
  simp only [Option.some_bind]
  rw [hsplit.1, (takeWhile_all notColon h hhc).1, (takeWhile_all notColon h hhc).2,
    if_pos (by decide)]

/-- The values regex on a `version:hash:path` payload. -/
theorem valuesCaptures_vhp (ver h p : List Char)
    (hverc : ∀ c ∈ ver, notColon c = true) (hhc : ∀ c ∈ h, notColon c = true)
    (hp_ne : p ≠ []) (hp_nl : '\n' ∉ p) :
    valuesCaptures (ver ++ ':' :: (h ++ ':' :: p))
      = some (some ver, some h, some p) := by
  have hsplit := takeWhile_split notColon ver ':' (h ++ ':' :: p) hverc (by decide)
  have hsplit2 := takeWhile_split notColon h ':' p hhc (by decide)
  have hnn : ¬(ver ++ ':' :: (h ++ ':' :: p) = []) := by simp
  simp only [valuesCaptures]
  rw [if_neg hnn, hsplit.2, expectChar_cons_self]
  simp only [Option.some_bind]
  rw [hsplit.1, hsplit2.1, hsplit2.2, if_neg (by simp), expectChar_cons_self]
  simp only [Option.some_bind]
  rw [if_pos ⟨hp_ne, hp_nl⟩]

/-- The values regex on a `::path` payload (the `MoveTo` form): both the
version and hash groups capture the empty string. -/
theorem valuesCaptures_colons (p : List Char) (hp_ne : p ≠ []) (hp_nl : '\n' ∉ p) :
    valuesCaptures (':' :: ':' :: p) = some (some [], some [], some p) := by
  have hnn : ¬((':' :: ':' :: p : List Char) = []) := by simp
  have hcolon : ¬(notColon ':' = true) := by decide
  simp only [valuesCaptures]
  rw [if_neg hnn, List.dropWhile_cons_of_neg hcolon, expectChar_cons_self]
  simp only [Option.some_bind]
  rw [List.takeWhile_cons_of_neg hcolon, List.takeWhile_cons_of_neg hcolon,
    List.dropWhile_cons_of_neg hcolon, if_neg (by simp), expectChar_cons_self]
  simp only [Option.some_bind]
  rw [if_pos ⟨hp_ne, hp_nl⟩]

/-- The type regex on a well-formed `Name[payload]` string: the `[A-z]+` run
swallows the opening bracket and backtracks one character, so the name is
captured exactly when the payload starts with a character outside `[A-z]`. -/
theorem entryTypeCaptures_encode (n0 : Char) (nrest : List Char) (p0 : Char)
    (prest : List Char) (hname_az : ∀ c ∈ n0 :: nrest, isAz c = true)
    (hp0 : isAz p0 = false) (hpay_nl : '\n' ∉ p0 :: prest) :
    entryTypeCaptures ((n0 :: nrest) ++ ('[' :: ((p0 :: prest) ++ [']'])))
      = some (n0 :: nrest, p0 :: prest) := by
  have hp0ne : ¬(p0 = '[') := by
    intro e
    rw [e] at hp0
    exact absurd hp0 (by decide)
  have hshape : (n0 :: nrest) ++ ('[' :: ((p0 :: prest) ++ [']']))
      = ((n0 :: nrest) ++ ['[']) ++ (p0 :: (prest ++ [']'])) := by simp
  have hAz : ∀ c ∈ (n0 :: nrest) ++ ['['], isAz c = true := by
    intro c hc
    rcases List.mem_append.mp hc with hc | hc
    · exact hname_az c hc
    · rw [List.mem_singleton] at hc
      subst hc
      decide
  have hsp := takeWhile_split isAz ((n0 :: nrest) ++ ['[']) p0 (prest ++ [']']) hAz hp0
  have hrun : runLen isAz ((n0 :: nrest) ++ ('[' :: ((p0 :: prest) ++ [']'])))
      = nrest.length + 1 + 1 := by
    unfold runLen
    rw [hshape, hsp.1]
    simp
  have htakeA : ((n0 :: nrest) ++ ('[' :: ((p0 :: prest) ++ [']']))).take
      (nrest.length + 1 + 1) = (n0 :: nrest) ++ ['['] := by
    rw [hshape]
    exact List.take_left' (by simp)
  have hdropA : ((n0 :: nrest) ++ ('[' :: ((p0 :: prest) ++ [']']))).drop
      (nrest.length + 1 + 1) = p0 :: (prest ++ [']']) := by
    rw [hshape]
    exact List.drop_left' (by simp)
  have htakeB : ((n0 :: nrest) ++ ('[' :: ((p0 :: prest) ++ [']']))).take
      (nrest.length + 1) = n0 :: nrest := List.take_left' (by simp)
  have hdropB : ((n0 :: nrest) ++ ('[' :: ((p0 :: prest) ++ [']']))).drop
      (nrest.length + 1) = '[' :: ((p0 :: prest) ++ [']']) := List.drop_left' (by simp)
  have hstar := starBracket_concat (p0 :: prest) hpay_nl
  unfold entryTypeCaptures plusCapture greedyPlusCands
  rw [hrun, range'_rev_succ, range'_rev_succ, List.map_cons, List.map_cons]
  refine Eq.trans (firstSome_cons_none ?_) (firstSome_cons_some ?_)
  · simp only [htakeA, hdropA, expectChar_cons_ne _ hp0ne, Option.none_bind]
  · simp only [htakeB, hdropB, expectChar_cons_self, Option.some_bind, hstar,
      Option.map_some']

/-- The line regex on a well-formed `ts [addr] entry` line: the timestamp is
space-free, the address is `]`-free, and the entry body is accepted whole by
the `.+\]` group. -/
theorem entryLineCaptures_encode (t0 : Char) (trest : List Char) (a0 : Char)
    (arest : List Char) (b0 : Char) (brest : List Char)
    (hts_ws : ∀ c ∈ t0 :: trest, isWs c = false)
    (haddr : ∀ c ∈ a0 :: arest, notRBracket c = true)
    (hb0 : isWs b0 = false)
    (hdot : dotPlusBracket (b0 :: brest) = some (b0 :: brest)) :
    entryLineCaptures
        ((t0 :: trest) ++ (' ' :: '[' :: ((a0 :: arest) ++ (']' :: ' ' :: (b0 :: brest)))))
      = some (t0 :: trest, a0 :: arest, b0 :: brest) := by
  have hA : ∀ c ∈ t0 :: trest, notSpace c = true :=
    fun c hc => ws_false_notSpace (hts_ws c hc)
  have ht0 : ¬(isWs t0 = true) := by
    rw [hts_ws t0 (List.mem_cons_self _ _)]
    exact Bool.false_ne_true
  have hb0' : ¬(isWs b0 = true) := by
    rw [hb0]
    exact Bool.false_ne_true
  have hsp1 := takeWhile_split notSpace (t0 :: trest) ' '
    ('[' :: a0 :: (arest ++ ']' :: ' ' :: b0 :: brest)) hA (by decide)
  simp only [List.cons_append] at hsp1
  have hsp2 := takeWhile_split notRBracket (a0 :: arest) ']' (' ' :: b0 :: brest)
    haddr (by decide)
  simp only [List.cons_append] at hsp2
  simp only [List.cons_append]
  unfold entryLineCaptures
  refine starCapture_first _ _ _ ?_
  rw [List.dropWhile_cons_of_neg ht0]
  have hrun1 : runLen notSpace
      (t0 :: (trest ++ ' ' :: '[' :: a0 :: (arest ++ ']' :: ' ' :: b0 :: brest)))
      = trest.length + 1 := by
    unfold runLen
    rw [hsp1.1]
    simp
  refine plusCapture_first _ _ _ hrun1 ?_
  simp only [hsp1.1, hsp1.2]
  have hw1 : (' ' :: '[' :: a0 :: (arest ++ ']' :: ' ' :: b0 :: brest)).takeWhile isWs
      = [' '] := by
    rw [List.takeWhile_cons_of_pos (by decide), List.takeWhile_cons_of_neg (by decide)]
  have hd1 : (' ' :: '[' :: a0 :: (arest ++ ']' :: ' ' :: b0 :: brest)).dropWhile isWs
      = '[' :: a0 :: (arest ++ ']' :: ' ' :: b0 :: brest) := by
    rw [List.dropWhile_cons_of_pos (by decide), List.dropWhile_cons_of_neg (by decide)]
  have hrun2 : runLen isWs (' ' :: '[' :: a0 :: (arest ++ ']' :: ' ' :: b0 :: brest))
      = 0 + 1 := by
    unfold runLen
    rw [hw1]
    decide
  refine plusCapture_first _ _ _ hrun2 ?_
  simp only [hw1, hd1, expectChar_cons_self, Option.some_bind]
  have hrun3 : runLen notRBracket (a0 :: (arest ++ ']' :: ' ' :: b0 :: brest))
      = arest.length + 1 := by
    unfold runLen
    rw [hsp2.1]
    simp
  refine plusCapture_first _ _ _ hrun3 ?_
  simp only [hsp2.1, hsp2.2, expectChar_cons_self, Option.some_bind]
  have hw2 : (' ' :: b0 :: brest).takeWhile isWs = [' '] := by
    rw [List.takeWhile_cons_of_pos (by decide), List.takeWhile_cons_of_neg hb0']
  have hd2 : (' ' :: b0 :: brest).dropWhile isWs = b0 :: brest := by
    rw [List.dropWhile_cons_of_pos (by decide), List.dropWhile_cons_of_neg hb0']
  have hrun4 : runLen isWs (' ' :: b0 :: brest) = 0 + 1 := by
    unfold runLen
    rw [hw2]
    decide
  refine plusCapture_first _ _ _ hrun4 ?_
  simp only [hw2, hd2, hdot, Option.map_some']

theorem renderNat_no_nl (n : Nat) : '\n' ∉ renderNat n :=
  fun hc => (digit_props ((renderNat_spec n).2.1 _ hc)).2.2.1 rfl

theorem renderNat_no_colon (n : Nat) : ∀ c ∈ renderNat n, notColon c = true :=
  fun c hc => (digit_props ((renderNat_spec n).2.1 c hc)).2.1

theorem renderNat_head_mem (n : Nat) (rest : List Char) (c : Char)
    (hc : (renderNat n ++ rest).head? = some c) :
    c ∈ (['0', '1', '2', '3', '4', '5', '6', '7', '8', '9'] : List Char) := by
  cases hrn : renderNat n with
  | nil => exact absurd hrn (renderNat_spec n).1
  | cons d0 drest =>
    rw [hrn, List.cons_append, List.head?_cons] at hc
    have hd := (renderNat_spec n).2.1 d0 (by rw [hrn]; exact List.mem_cons_self _ _)
    rwa [Option.some.inj hc] at hd

theorem no_nl_append {xs ys : List Char} (hx : '\n' ∉ xs) (hy : '\n' ∉ ys) :
    '\n' ∉ xs ++ ys := by
  intro hc
  rcases List.mem_append.mp hc with hc | hc
  exacts [hx hc, hy hc]

theorem no_nl_cons {c : Char} {xs : List Char} (hc : ¬('\n' = c)) (hx : '\n' ∉ xs) :
    '\n' ∉ c :: xs := by
  intro hm
  rcases List.mem_cons.mp hm with hm | hm
  exacts [hc hm, hx hm]

theorem entryTypeCaptures_name_payload (n0 : Char) (nrest payload : List Char)
    (hname : ∀ c ∈ n0 :: nrest, isAz c = true) (hpay_ne : payload ≠ [])
    (hp0 : ∀ c, payload.head? = some c → isAz c = false)
    (hpay_nl : '\n' ∉ payload) :
    entryTypeCaptures ((n0 :: nrest) ++ ('[' :: (payload ++ [']'])))
      = some (n0 :: nrest, payload) := by
  cases payload with
  | nil => exact absurd rfl hpay_ne
  | cons p0 prest =>
    exact entryTypeCaptures_encode n0 nrest p0 prest hname (hp0 p0 rfl) hpay_nl

theorem decode_via (cs name payload : List Char)
    (vhp : Option (List Char) × Option (List Char) × Option (List Char))
    (hcap : entryTypeCaptures cs = some (name, payload))
    (hvc : valuesCaptures payload = some vhp) :
    FileLogEntryType.decode cs
      = decodeDispatch name (vhp.1.bind parseU32) vhp.2.1 vhp.2.2 := by
  unfold FileLogEntryType.decode
  rw [hcap]
  simp only [Option.some_bind]
  rw [hvc]
  simp only [Option.some_bind]

theorem decode_encode_creation (v : Nat) (h : List Char) (hv : v < 2 ^ 32)
    (hhc : ∀ c ∈ h, notColon c = true) (hh_nl : '\n' ∉ h) :
    FileLogEntryType.decode (FileLogEntryType.encode (.Creation v h))
      = some (.Creation v h) := by
  have hE : FileLogEntryType.encode (.Creation v h)
      = ('C' :: "reation".toList) ++ ('[' :: ((renderNat v ++ ':' :: h) ++ [']'])) := by
    show "Creation[".toList ++ renderNat v ++ ':' :: h ++ [']'] = _
    rw [show "Creation[".toList = ('C' :: "reation".toList) ++ ['['] from rfl]
    simp [List.append_assoc]
  have hpay_ne : renderNat v ++ ':' :: h ≠ [] := by simp
  have hp0 : ∀ c, (renderNat v ++ ':' :: h).head? = some c → isAz c = false :=
    fun c hc => (digit_props (renderNat_head_mem v _ c hc)).2.2.2.2.1
  have hpay_nl : '\n' ∉ renderNat v ++ ':' :: h :=
    no_nl_append (renderNat_no_nl v) (no_nl_cons (by decide) hh_nl)
  have hcap := entryTypeCaptures_name_payload 'C' "reation".toList _ (by decide)
    hpay_ne hp0 hpay_nl
  have hvc := valuesCaptures_vh (renderNat v) h (renderNat_no_colon v) hhc
  rw [hE, decode_via _ _ _ _ hcap hvc]
  simp only [Option.some_bind]
  rw [parseU32_renderNat hv]
  unfold decodeDispatch
  rw [if_pos (by decide)]

theorem decode_encode_modification (v : Nat) (h : List Char) (hv : v < 2 ^ 32)
    (hhc : ∀ c ∈ h, notColon c = true) (hh_nl : '\n' ∉ h) :
    FileLogEntryType.decode (FileLogEntryType.encode (.Modification v h))
      = some (.Modification v h) := by
  have hE : FileLogEntryType.encode (.Modification v h)
      = ('M' :: "odification".toList) ++ ('[' :: ((renderNat v ++ ':' :: h) ++ [']'])) := by
    show "Modification[".toList ++ renderNat v ++ ':' :: h ++ [']'] = _
    rw [show "Modification[".toList = ('M' :: "odification".toList) ++ ['['] from rfl]
    simp [List.append_assoc]
  have hpay_ne : renderNat v ++ ':' :: h ≠ [] := by simp
  have hp0 : ∀ c, (renderNat v ++ ':' :: h).head? = some c → isAz c = false :=
    fun c hc => (digit_props (renderNat_head_mem v _ c hc)).2.2.2.2.1
  have hpay_nl : '\n' ∉ renderNat v ++ ':' :: h :=
    no_nl_append (renderNat_no_nl v) (no_nl_cons (by decide) hh_nl)
  have hcap := entryTypeCaptures_name_payload 'M' "odification".toList _ (by decide)
    hpay_ne hp0 hpay_nl
  have hvc := valuesCaptures_vh (renderNat v) h (renderNat_no_colon v) hhc
  rw [hE, decode_via _ _ _ _ hcap hvc]
  simp only [Option.some_bind]
  rw [parseU32_renderNat hv]
  unfold decodeDispatch
  rw [if_neg (by decide), if_pos (by decide)]

theorem decode_encode_deletion :
    FileLogEntryType.decode (FileLogEntryType.encode .Deletion) = some .Deletion := by
  decide

theorem decode_encode_moveto (p : List Char) (hp_ne : p ≠ []) (hp_nl : '\n' ∉ p) :
    FileLogEntryType.decode (FileLogEntryType.encode (.MoveTo p))
      = some (.MoveTo p) := by
  have hE : FileLogEntryType.encode (.MoveTo p)
      = ('M' :: "oveTo".toList) ++ ('[' :: ((':' :: ':' :: p) ++ [']'])) := by
    show "MoveTo[::".toList ++ p ++ [']'] = _
    rw [show "MoveTo[::".toList = (('M' :: "oveTo".toList) ++ ['[']) ++ [':', ':'] from rfl]
    simp [List.append_assoc]
  have hp0 : ∀ c, (':' :: ':' :: p : List Char).head? = some c → isAz c = false := by
    intro c hc
    rw [List.head?_cons] at hc
    rw [← Option.some.inj hc]
    decide
  have hpay_nl : '\n' ∉ ':' :: ':' :: p :=
    no_nl_cons (by decide) (no_nl_cons (by decide) hp_nl)
  have hcap := entryTypeCaptures_name_payload 'M' "oveTo".toList (':' :: ':' :: p)
    (by decide) (by simp) hp0 hpay_nl
  have hvc := valuesCaptures_colons p hp_ne hp_nl
  rw [hE, decode_via _ _ _ _ hcap hvc]
  simp only [Option.some_bind]
  unfold decodeDispatch
  rw [if_neg (by decide), if_neg (by decide), if_neg (by decide), if_pos (by decide)]

theorem decode_encode_movefrom (v : Nat) (h p : List Char) (hv : v < 2 ^ 32)
    (hhc : ∀ c ∈ h, notColon c = true) (hh_nl : '\n' ∉ h)
    (hp_ne : p ≠ []) (hp_nl : '\n' ∉ p) :
    FileLogEntryType.decode (FileLogEntryType.encode (.MoveFrom v h p))
      = some (.MoveFrom v h p) := by
  have hE : FileLogEntryType.encode (.MoveFrom v h p)
      = ('M' :: "oveFrom".toList)
          ++ ('[' :: ((renderNat v ++ ':' :: (h ++ ':' :: p)) ++ [']'])) := by
    show "MoveFrom[".toList ++ renderNat v ++ ':' :: h ++ ':' :: p ++ [']'] = _
    rw [show "MoveFrom[".toList = ('M' :: "oveFrom".toList) ++ ['['] from rfl]
    simp [List.append_assoc]
  have hpay_ne : renderNat v ++ ':' :: (h ++ ':' :: p) ≠ [] := by simp
  have hp0 : ∀ c, (renderNat v ++ ':' :: (h ++ ':' :: p)).head? = some c →
      isAz c = false :=
    fun c hc => (digit_props (renderNat_head_mem v _ c hc)).2.2.2.2.1
  have hpay_nl : '\n' ∉ renderNat v ++ ':' :: (h ++ ':' :: p) :=
    no_nl_append (renderNat_no_nl v)
      (no_nl_cons (by decide) (no_nl_append hh_nl (no_nl_cons (by decide) hp_nl)))
  have hcap := entryTypeCaptures_name_payload 'M' "oveFrom".toList _ (by decide)
    hpay_ne hp0 hpay_nl
  have hvc := valuesCaptures_vhp (renderNat v) h p (renderNat_no_colon v) hhc hp_ne hp_nl
  rw [hE, decode_via _ _ _ _ hcap hvc]
  simp only [Option.some_bind]
  rw [parseU32_renderNat hv]
  unfold decodeDispatch
  rw [if_neg (by decide), if_neg (by decide), if_neg (by decide), if_neg (by decide),
    if_pos (by decide)]

/-- The well-formedness conditions on a history entry under which the text
codec round-trips: the `u32` range for versions, colon-free and newline-free
hashes, and non-empty newline-free paths. -/
def entryOk : FileLogEntryType → Prop
  | .Creation v h => v < 2 ^ 32 ∧ (∀ c ∈ h, notColon c = true) ∧ '\n' ∉ h
  | .Deletion => True
  | .Modification v h => v < 2 ^ 32 ∧ (∀ c ∈ h, notColon c = true) ∧ '\n' ∉ h
  | .MoveTo p => p ≠ [] ∧ '\n' ∉ p
  | .MoveFrom v h p =>
    v < 2 ^ 32 ∧ (∀ c ∈ h, notColon c = true) ∧ '\n' ∉ h ∧ p ≠ [] ∧ '\n' ∉ p

theorem decode_encode (t : FileLogEntryType) (h : entryOk t) :
    FileLogEntryType.decode (FileLogEntryType.encode t) = some t := by
  cases t with
  | Creation v hs => exact decode_encode_creation v hs h.1 h.2.1 h.2.2
  | Deletion => exact decode_encode_deletion
  | Modification v hs => exact decode_encode_modification v hs h.1 h.2.1 h.2.2
  | MoveTo p => exact decode_encode_moveto p h.1 h.2
  | MoveFrom v hs p =>
    exact decode_encode_movefrom v hs p h.1 h.2.1 h.2.2.1 h.2.2.2.1 h.2.2.2.2

theorem encode_head_shape (t : FileLogEntryType) (hok : entryOk t) :
    FileLogEntryType.encode t ≠ [] ∧
    (∀ c, (FileLogEntryType.encode t).head? = some c → isWs c = false) ∧
    dotPlusBracket (FileLogEntryType.encode t) = some (FileLogEntryType.encode t) := by
  cases t with
  | Creation v hs =>
    have hb : FileLogEntryType.encode (.Creation v hs)
        = ("Creation[".toList ++ renderNat v ++ ':' :: hs) ++ [']'] := by
      show "Creation[".toList ++ renderNat v ++ ':' :: hs ++ [']'] = _
      simp [List.append_assoc]
    refine ⟨by rw [hb]; simp, fun c hc => by rw [← Option.some.inj hc]; decide, ?_⟩
    rw [hb]
    exact dotPlusBracket_concat _ (by simp)
      (no_nl_append (no_nl_append (by decide) (renderNat_no_nl v))
        (no_nl_cons (by decide) hok.2.2))
  | Deletion => exact ⟨by decide, fun c hc => by rw [← Option.some.inj hc]; decide, by decide⟩
  | Modification v hs =>
    have hb : FileLogEntryType.encode (.Modification v hs)
        = ("Modification[".toList ++ renderNat v ++ ':' :: hs) ++ [']'] := by
      show "Modification[".toList ++ renderNat v ++ ':' :: hs ++ [']'] = _
      simp [List.append_assoc]
    refine ⟨by rw [hb]; simp, fun c hc => by rw [← Option.some.inj hc]; decide, ?_⟩
    rw [hb]
    exact dotPlusBracket_concat _ (by simp)
      (no_nl_append (no_nl_append (by decide) (renderNat_no_nl v))
        (no_nl_cons (by decide) hok.2.2))
  | MoveTo p =>
    have hb : FileLogEntryType.encode (.MoveTo p)
        = ("MoveTo[::".toList ++ p) ++ [']'] := by
      show "MoveTo[::".toList ++ p ++ [']'] = _
      simp [List.append_assoc]
    refine ⟨by rw [hb]; simp, fun c hc => by rw [← Option.some.inj hc]; decide, ?_⟩
    rw [hb]
    exact dotPlusBracket_concat _ (by simp) (no_nl_append (by decide) hok.2)
  | MoveFrom v hs p =>
    have hb : FileLogEntryType.encode (.MoveFrom v hs p)
        = ("MoveFrom[".toList ++ renderNat v ++ ':' :: hs ++ ':' :: p) ++ [']'] := by
      show "MoveFrom[".toList ++ renderNat v ++ ':' :: hs ++ ':' :: p ++ [']'] = _
      simp [List.append_assoc]
    refine ⟨by rw [hb]; simp, fun c hc => by rw [← Option.some.inj hc]; decide, ?_⟩
    rw [hb]
    exact dotPlusBracket_concat _ (by simp)
      (no_nl_append
        (no_nl_append (no_nl_append (by decide) (renderNat_no_nl v))
          (no_nl_cons (by decide) hok.2.2.1))
        (no_nl_cons (by decide) hok.2.2.2.2))

/-- C7 counterexample: the codec present in `src/files/src/log.rs` writes the
update variant as `Modification[v:h]`, not `Update[v:h]`, and its decoder
rejects the `Update[v:h]` form outright. -/
theorem update_alias_rejected :
    FileLogEntryType.encode (.Modification 1 ['h']) ≠ "Update[1:h]".toList ∧
    FileLogEntryType.decode "Update[1:h]".toList = none := by
  decide

/-- C7 (amended): the text codec writes the update variant as
`Modification[version:hash]`; on read it accepts the `Modification[v:h]` form
and rejects `Update[v:h]` (the regex captures succeed but the type-name
dispatch has no `Update` arm). -/
theorem update_codec_amended (v : Nat) (h : List Char) (hv : v < 2 ^ 32)
    (hhc : ∀ c ∈ h, notColon c = true) (hh_nl : '\n' ∉ h) :
    FileLogEntryType.encode (.Modification v h)
      = "Modification[".toList ++ renderNat v ++ ':' :: h ++ [']'] ∧
    FileLogEntryType.decode ("Modification[".toList ++ renderNat v ++ ':' :: h ++ [']'])
      = some (.Modification v h) ∧
    FileLogEntryType.decode ("Update[".toList ++ renderNat v ++ ':' :: h ++ [']'])
      = none := by
  refine ⟨rfl, decode_encode_modification v h hv hhc hh_nl, ?_⟩
  have hE : "Update[".toList ++ renderNat v ++ ':' :: h ++ [']']
      = ('U' :: "pdate".toList) ++ ('[' :: ((renderNat v ++ ':' :: h) ++ [']'])) := by
    rw [show "Update[".toList = ('U' :: "pdate".toList) ++ ['['] from rfl]
    simp [List.append_assoc]
  have hpay_ne : renderNat v ++ ':' :: h ≠ [] := by simp
  have hp0 : ∀ c, (renderNat v ++ ':' :: h).head? = some c → isAz c = false :=
    fun c hc => (digit_props (renderNat_head_mem v _ c hc)).2.2.2.2.1
  have hpay_nl : '\n' ∉ renderNat v ++ ':' :: h :=
    no_nl_append (renderNat_no_nl v) (no_nl_cons (by decide) hh_nl)
  have hcap := entryTypeCaptures_name_payload 'U' "pdate".toList _ (by decide)
    hpay_ne hp0 hpay_nl
  have hvc := valuesCaptures_vh (renderNat v) h (renderNat_no_colon v) hhc
  rw [hE, decode_via _ _ _ _ hcap hvc]
  simp only [Option.some_bind]
  rw [parseU32_renderNat hv]
  unfold decodeDispatch
  rw [if_neg (by decide), if_neg (by decide), if_neg (by decide), if_neg (by decide),
    if_neg (by decide)]

theorem update_codec_amended_witness :
    (1 : Nat) < 2 ^ 32 ∧
    (FileLogEntryType.encode (.Modification 1 ['h'])
        = "Modification[".toList ++ renderNat 1 ++ ':' :: ['h'] ++ [']'] ∧
      FileLogEntryType.decode
          ("Modification[".toList ++ renderNat 1 ++ ':' :: ['h'] ++ [']'])
        = some (.Modification 1 ['h']) ∧
      FileLogEntryType.decode ("Update[".toList ++ renderNat 1 ++ ':' :: ['h'] ++ [']'])
        = none) :=
  ⟨by decide, update_codec_amended 1 ['h'] (by decide) (by decide) (by decide)⟩

/-- JSON values, for modelling the output of serde's derived `Serialize`. -/
inductive JVal where
  | str (s : List Char)
  | num (n : Nat)
deriving DecidableEq, Repr

/-- The derived internally-tagged (`#[serde(tag = "type")]`) serialization of
`FileLogEntryType` (`src/files/src/log.rs` lines 11-33): an object holding the
`type` tag and one key per field of the variant, with the serde renames
`pathTo`/`pathFrom` applied. -/
def entryTypeToJson : FileLogEntryType → List (List Char × JVal)
  | .Creation v h =>
    [("type".toList, .str "Creation".toList), ("version".toList, .num v),
      ("hash".toList, .str h)]
  | .Deletion => [("type".toList, .str "Deletion".toList)]
  | .Modification v h =>
    [("type".toList, .str "Modification".toList), ("version".toList, .num v),
      ("hash".toList, .str h)]
  | .MoveTo p => [("type".toList, .str "MoveTo".toList), ("pathTo".toList, .str p)]
  | .MoveFrom v h p =>
    [("type".toList, .str "MoveFrom".toList), ("version".toList, .num v),
      ("hash".toList, .str h), ("pathFrom".toList, .str p)]

/-- The keys of a serialized object. -/
def jsonKeys (o : List (List Char × JVal)) : List (List Char) := o.map Prod.fst

/-- C8: contrary to the claim, the `Deletion` and `MoveTo` variants of the
enum in `src/files/src/log.rs` carry no `version` field, so their JSON
serialization emits no `version` key. -/
theorem deletion_moveto_no_version_key :
    ("version".toList ∉ jsonKeys (entryTypeToJson FileLogEntryType.Deletion)) ∧
    ∀ p : List Char, "version".toList ∉ jsonKeys (entryTypeToJson (.MoveTo p)) := by
  constructor
  · decide
  · intro p
    show "version".toList ∉ ["type".toList, "pathTo".toList]
    decide

/-- C10: for every history entry whose version is in `u32` range, whose hash
is colon-free and newline-free, and whose path (for `MoveTo`/`MoveFrom`) is
non-empty and newline-free, decoding the line produced by the text-codec
encoder returns the original entry, provided the timestamp and address
renderings round-trip, are non-empty, and are free of whitespace
(resp. of `]`). -/
theorem log_entry_roundtrip {T A : Type} (renderTs : T → List Char)
    (parseTs : List Char → Option T) (renderAddr : A → List Char)
    (parseAddr : List Char → Option A) (e : FileLogEntry T A)
    (hts_rt : parseTs (renderTs e.timestamp) = some e.timestamp)
    (haddr_rt : parseAddr (renderAddr e.address) = some e.address)
    (hts_ne : renderTs e.timestamp ≠ [])
    (hts_ws : ∀ c ∈ renderTs e.timestamp, isWs c = false)
    (haddr_ne : renderAddr e.address ≠ [])
    (haddr_rb : ∀ c ∈ renderAddr e.address, notRBracket c = true)
    (hok : entryOk e.entry) :
    FileLogEntry.decodeLine parseTs parseAddr
      (FileLogEntry.encodeLine renderTs renderAddr e) = some e := by
  obtain ⟨hene, hehd, hedot⟩ := encode_head_shape e.entry hok
  cases hT : renderTs e.timestamp with
  | nil => exact absurd hT hts_ne
  | cons t0 trest =>
  cases hA : renderAddr e.address with
  | nil => exact absurd hA haddr_ne
  | cons a0 arest =>
  cases hB : FileLogEntryType.encode e.entry with
  | nil => exact absurd hB hene
  | cons b0 brest =>
  rw [hT] at hts_rt hts_ws
  rw [hA] at haddr_rt haddr_rb
  rw [hB] at hedot
  have hb0 : isWs b0 = false := hehd b0 (by rw [hB]; rfl)
  have hline := entryLineCaptures_encode t0 trest a0 arest b0 brest hts_ws haddr_rb
    hb0 hedot
  have hEL : FileLogEntry.encodeLine renderTs renderAddr e
      = (t0 :: trest)
          ++ (' ' :: '[' :: ((a0 :: arest) ++ (']' :: ' ' :: (b0 :: brest)))) := by
    show renderTs e.timestamp ++ ' ' :: '[' :: renderAddr e.address ++ ']' :: ' ' ::
        FileLogEntryType.encode e.entry = _
    rw [hT, hA, hB]
    simp [List.append_assoc]
  unfold FileLogEntry.decodeLine
  rw [hEL, hline]
  simp only [Option.some_bind]
  rw [hts_rt]
  simp only [Option.some_bind]
  rw [haddr_rt]
  simp only [Option.some_bind]
  rw [← hB, decode_encode e.entry hok]
  simp only [Option.map_some']

theorem log_entry_roundtrip_witness :
    FileLogEntry.decodeLine (fun _ => some (0 : Nat)) (fun _ => some (0 : Nat))
        (FileLogEntry.encodeLine (fun _ : Nat => ['t']) (fun _ : Nat => ['a'])
          ⟨0, 0, FileLogEntryType.Deletion⟩)
      = some ⟨0, 0, FileLogEntryType.Deletion⟩ :=
  log_entry_roundtrip _ _ _ _ _ rfl rfl (by decide) (by decide) (by decide) (by decide)
    True.intro

end Log

namespace LogsComparator

/-- `LastEvent` of `src/cache/src/logs_comparator.rs` (lines 1-6); the
timestamp is an integer number of seconds. -/
inductive LastEvent where
  | None
  | Deletion (hash : List Char) (datetime : Int)
  | Update (hash : List Char) (datetime : Int)
deriving DecidableEq, Repr

/-- `ComparisonResult` of `src/cache/src/logs_comparator.rs` (lines 8-14). -/
inductive ComparisonResult where
  | Equal
  | LocalIsMoreRecent
  | DistantIsMoreRecent
  | Diverge
deriving DecidableEq, Repr

/-- The hash-carrying test used by `get_last_event`'s reverse search and by
`is_hash_in_log` (the `Creation | Modification | MoveFrom` arms). -/
def isHashKind : Log.FileLogEntryType → Bool
  | .Creation .. => true
  | .Modification .. => true
  | .MoveFrom .. => true
  | _ => false

/-- `get_last_event` (`src/cache/src/logs_comparator.rs` lines 16-53): the
simplified view of the last operation. A trailing hash-carrying entry gives
`Update(hash, its timestamp)`; otherwise the most recent hash-carrying entry
supplies the hash of a `Deletion` stamped with the *last* entry's
timestamp; an absent or hashless log gives `None`. -/
def getLastEvent {A : Type} (log : Option (Log.FileLog Int A)) : LastEvent :=
  match log with
  | some log =>
    match log.entries.getLast? with
    | Option.none => .None
    | some last =>
      match last.entry with
      | .Creation _ h | .Modification _ h | .MoveFrom _ h _ => .Update h last.timestamp
      | _ =>
        match log.entries.reverse.find? (fun e => isHashKind e.entry) with
        | some e =>
          match e.entry with
          | .Creation _ h | .Modification _ h | .MoveFrom _ h _ =>
            .Deletion h last.timestamp
          | _ => .None
        | Option.none => .None
  | Option.none => .None

/-- `explode_event` (`src/cache/src/logs_comparator.rs` lines 55-67): the
deletion bias of 10 seconds (`checked_add_signed` cannot overflow on the
integer timeline). The `LastEvent::None` arm is a `panic!()` in the source,
modelled as `none`; `compare_logs` only calls it behind the `None` guards. -/
def explodeEvent : LastEvent → Option (List Char × Int)
  | .None => Option.none
  | .Deletion h d => some (h, d + 10)
  | .Update h d => some (h, d)

/-- `is_hash_in_log` (`src/cache/src/logs_comparator.rs` lines 69-80). -/
def isHashInLog {A : Type} (hashIn : List Char) (log : Log.FileLog Int A) : Bool :=
  (log.entries.reverse.find? (fun e =>
    match e.entry with
    | .MoveFrom _ h _ => h = hashIn
    | .Modification _ h => h = hashIn
    | .Creation _ h => h = hashIn
    | _ => false)).isSome

/-- `compare_logs` (`src/cache/src/logs_comparator.rs` lines 82-115). The
source can panic (`explode_event`'s `panic!()` and the two `.unwrap()`s on
the log options); a panic is modelled as `none`. -/
def compareLogs {A : Type} (localLog distantLog : Option (Log.FileLog Int A)) :
    Option ComparisonResult :=
  let lastLocalEvent := getLastEvent localLog
  let lastDistantEvent := getLastEvent distantLog
  if lastLocalEvent = lastDistantEvent then some .Equal
  else if lastLocalEvent = .None then some .DistantIsMoreRecent
  else if lastDistantEvent = .None then some .LocalIsMoreRecent
  else
    match explodeEvent lastLocalEvent, explodeEvent lastDistantEvent with
    | some (lastLocalHash, lastLocalDatetime), some (lastDistantHash, lastDistantDatetime) =>
      if lastLocalHash = lastDistantHash then
        some (if lastLocalDatetime < lastDistantDatetime then .DistantIsMoreRecent
          else .LocalIsMoreRecent)
      else
        match distantLog with
        | Option.none => Option.none
        | some dl =>
          if isHashInLog lastLocalHash dl then some .DistantIsMoreRecent
          else
            match localLog with
            | Option.none => Option.none
            | some ll =>
              if isHashInLog lastDistantHash ll then some .LocalIsMoreRecent
              else some .Diverge
    | _, _ => Option.none

/-- The relabeling `Local ↔ Distant` of a comparison result. -/
def inverseResult : ComparisonResult → ComparisonResult
  | .LocalIsMoreRecent => .DistantIsMoreRecent
  | .DistantIsMoreRecent => .LocalIsMoreRecent
  | r => r

/-- Claim C3 as stated is false: when each side's last hash occurs in the
other side's history, both call orders return `DistantIsMoreRecent`, because
`compare_logs` checks `is_hash_in_log(local_hash, distant)` first in both
orders. Local history: `Creation[0:A], Modification[1:B]`; distant history:
`Creation[0:B], Modification[1:A]`. -/
theorem compare_logs_not_antisymmetric :
    compareLogs
        (some ⟨[⟨0, 0, .Creation 0 ['A']⟩, ⟨1, 0, .Modification 1 ['B']⟩]⟩)
        (some ⟨[⟨0, 0, .Creation 0 ['B']⟩, ⟨1, 0, .Modification 1 ['A']⟩]⟩)
      = some .DistantIsMoreRecent ∧
    compareLogs
        (some ⟨[⟨0, 0, .Creation 0 ['B']⟩, ⟨1, 0, .Modification 1 ['A']⟩]⟩)
        (some ⟨[⟨0, 0, .Creation 0 ['A']⟩, ⟨1, 0, .Modification 1 ['B']⟩]⟩)
      = some .DistantIsMoreRecent ∧
    ¬(compareLogs
        (some (⟨[⟨0, 0, .Creation 0 ['A']⟩, ⟨1, 0, .Modification 1 ['B']⟩]⟩ :
          Log.FileLog Int Int))
        (some ⟨[⟨0, 0, .Creation 0 ['B']⟩, ⟨1, 0, .Modification 1 ['A']⟩]⟩)
      = (compareLogs
          (some ⟨[⟨0, 0, .Creation 0 ['B']⟩, ⟨1, 0, .Modification 1 ['A']⟩]⟩)
          (some ⟨[⟨0, 0, .Creation 0 ['A']⟩, ⟨1, 0, .Modification 1 ['B']⟩]⟩)).map
            inverseResult) := by
  refine ⟨by decide, by decide, by decide⟩

theorem log_some_of_event {A : Type} {l : Option (Log.FileLog Int A)}
    (h : getLastEvent l ≠ .None) : ∃ ll, l = some ll := by
  cases l with
  | none => exact absurd rfl h
  | some ll => exact ⟨ll, rfl⟩

theorem explodeEvent_some {e : LastEvent} (h : e ≠ .None) :
    ∃ p, explodeEvent e = some p := by
  cases e with
  | None => exact absurd rfl h
  | Deletion hh d => exact ⟨_, rfl⟩
  | Update hh d => exact ⟨_, rfl⟩

/-- Evaluation of `compare_logs` once both last events exist and differ. -/
theorem compareLogs_core {A : Type} {ll dl : Log.FileLog Int A} {lh dh : List Char}
    {ld dd : Int}
    (h12 : getLastEvent (some ll) ≠ getLastEvent (some dl))
    (h1n : ¬getLastEvent (some ll) = LastEvent.None)
    (h2n : ¬getLastEvent (some dl) = LastEvent.None)
    (hp : explodeEvent (getLastEvent (some ll)) = some (lh, ld))
    (hq : explodeEvent (getLastEvent (some dl)) = some (dh, dd)) :
    compareLogs (some ll) (some dl) =
      if lh = dh then
        some (if ld < dd then .DistantIsMoreRecent else .LocalIsMoreRecent)
      else if isHashInLog lh dl then some .DistantIsMoreRecent
      else if isHashInLog dh ll then some .LocalIsMoreRecent
      else some .Diverge := by
  simp only [compareLogs]
  rw [if_neg h12, if_neg h1n, if_neg h2n, hp, hq]

/-- Claim C3, amended — swapping the two logs exchanges `LocalIsMoreRecent`
with `DistantIsMoreRecent` and leaves `Equal` and `Diverge` unchanged,
provided the two last events do not tie: when both exist and differ, (a) if
their hashes agree their adjusted timestamps must differ, and (b) if their
hashes differ the two hashes must not each occur in the other side's
history. (The counterexample `compare_logs_not_antisymmetric` violates (b);
timestamp ties violating (a) break the exchange the same way, since both
orders then answer `LocalIsMoreRecent`.) -/
theorem compare_logs_antisymm {A : Type} (l d : Option (Log.FileLog Int A))
    (hts : ∀ p q, explodeEvent (getLastEvent l) = some p →
      explodeEvent (getLastEvent d) = some q →
      getLastEvent l ≠ getLastEvent d → p.1 = q.1 → p.2 ≠ q.2)
    (hmut : ∀ p q ll dl, l = some ll → d = some dl →
      explodeEvent (getLastEvent l) = some p →
      explodeEvent (getLastEvent d) = some q →
      p.1 ≠ q.1 → ¬(isHashInLog p.1 dl = true ∧ isHashInLog q.1 ll = true)) :
    compareLogs l d = (compareLogs d l).map inverseResult := by
  by_cases h12 : getLastEvent l = getLastEvent d
  · have e1 : compareLogs l d = some .Equal := by
      simp only [compareLogs]; rw [if_pos h12]
    have e2 : compareLogs d l = some .Equal := by
      simp only [compareLogs]; rw [if_pos h12.symm]
    rw [e1, e2]; rfl
  · have h21 : getLastEvent d ≠ getLastEvent l := fun h => h12 h.symm
    by_cases h1n : getLastEvent l = .None
    · have h2n : getLastEvent d ≠ .None := fun h => h12 (h1n.trans h.symm)
      have e1 : compareLogs l d = some .DistantIsMoreRecent := by
        simp only [compareLogs]; rw [if_neg h12, if_pos h1n]
      have e2 : compareLogs d l = some .LocalIsMoreRecent := by
        simp only [compareLogs]; rw [if_neg h21, if_neg h2n, if_pos h1n]
      rw [e1, e2]; rfl
    · by_cases h2n : getLastEvent d = .None
      · have e1 : compareLogs l d = some .LocalIsMoreRecent := by
          simp only [compareLogs]; rw [if_neg h12, if_neg h1n, if_pos h2n]
        have e2 : compareLogs d l = some .DistantIsMoreRecent := by
          simp only [compareLogs]; rw [if_neg h21, if_pos h2n]
        rw [e1, e2]; rfl
      · obtain ⟨ll, rfl⟩ := log_some_of_event h1n
        obtain ⟨dl, rfl⟩ := log_some_of_event h2n
        obtain ⟨⟨lh, ld⟩, hp⟩ := explodeEvent_some h1n
        obtain ⟨⟨dh, dd⟩, hq⟩ := explodeEvent_some h2n
        have e1 := compareLogs_core h12 h1n h2n hp hq
        have e2 := compareLogs_core h21 h2n h1n hq hp
        rw [e1, e2]
        by_cases hh : lh = dh
        · have hdne : ld ≠ dd := hts (lh, ld) (dh, dd) hp hq h12 hh
          rw [if_pos hh, if_pos hh.symm]
          by_cases hlt : ld < dd
          · rw [if_pos hlt, if_neg (by omega : ¬dd < ld)]; rfl
          · rw [if_neg hlt, if_pos (by omega : dd < ld)]; rfl
        · have hh' : ¬dh = lh := fun h => hh h.symm
          have hnm := hmut (lh, ld) (dh, dd) ll dl rfl rfl hp hq hh
          rw [if_neg hh, if_neg hh']
          by_cases hc1 : isHashInLog lh dl
          · have hc2 : ¬isHashInLog dh ll = true := fun h2 => hnm ⟨hc1, h2⟩
            rw [if_pos hc1, if_neg hc2, if_pos hc1]; rfl
          · by_cases hc2 : isHashInLog dh ll
            · rw [if_neg hc1, if_pos hc2, if_pos hc2]; rfl
            · rw [if_neg hc1, if_neg hc2, if_neg hc2, if_neg hc1]; rfl

/-- Concrete check of `compare_logs_antisymm`: a local log one update ahead
of the distant log. -/
theorem compare_logs_antisymm_witness :
    compareLogs
        (some (⟨[⟨0, 0, .Creation 0 ['A']⟩, ⟨1, 0, .Modification 1 ['B']⟩]⟩ :
          Log.FileLog Int Int))
        (some ⟨[⟨0, 0, .Creation 0 ['A']⟩]⟩)
      = (compareLogs
          (some ⟨[⟨0, 0, .Creation 0 ['A']⟩]⟩)
          (some (⟨[⟨0, 0, .Creation 0 ['A']⟩, ⟨1, 0, .Modification 1 ['B']⟩]⟩ :
            Log.FileLog Int Int))).map inverseResult :=
  compare_logs_antisymm _ _
    (by
      intro p q hp hq hne heq
      obtain rfl := Option.some.inj hp
      obtain rfl := Option.some.inj hq
      exact absurd heq (by decide))
    (by
      intro p q ll dl hll hdl hp hq hne
      obtain rfl := Option.some.inj hll
      obtain rfl := Option.some.inj hdl
      obtain rfl := Option.some.inj hp
      obtain rfl := Option.some.inj hq
      intro hcontra
      exact absurd hcontra.1 (by decide))

end LogsComparator

end KPV
